import Mathlib

set_option maxRecDepth 100000

/-!
Verification development for the NarrativeNexus 20-newsgroups extraction and
cleaning pipeline (source files `news_csv_50.py` and `deepcleane.py`).

The Python string and regex operations are shallowly embedded as structural
functions on `List Char`.  Python `str` is modelled as `String` (a list of
unicode scalar chars, which matches Python's code-point view of `str`), and
every regex substitution of the source is hand-compiled to an equivalent
explicit scan, following the leftmost / greedy / backtracking semantics of
CPython's `re` module.  Unicode notes: `\s`, `str.isspace` and
`str.splitlines` use the CPython character classes, encoded below
explicitly; `str.lower` and `re.IGNORECASE` are modelled as ASCII case
mapping (`Char.toLower`), which agrees with CPython on every character that
can reach a case-sensitive position in these pipelines.
-/

/-- Character class of Python `str.isspace` and of `\s` in `re` for text
patterns: ASCII whitespace, the C1 controls 0x1c-0x1f and 0x85, and the
unicode space separators. -/
def isPySpace (c : Char) : Bool :=
  let n := c.toNat
  (9 ≤ n && n ≤ 13) || n == 32 || (28 ≤ n && n ≤ 31) || n == 0x85 ||
    n == 0xa0 || n == 0x1680 || (0x2000 ≤ n && n ≤ 0x200a) ||
    n == 0x2028 || n == 0x2029 || n == 0x202f || n == 0x205f || n == 0x3000

/-- Line boundaries recognized by Python `str.splitlines` (besides the
two-character sequence `\r\n`, which is handled separately). -/
def isTermChar (c : Char) : Bool :=
  let n := c.toNat
  (10 ≤ n && n ≤ 13) || (28 ≤ n && n ≤ 30) || n == 0x85 || n == 0x2028 || n == 0x2029

/-- Characters removed by `_ILLEGAL_XML_RE` = `[\x00-\x08\x0B\x0C\x0E-\x1F]`
in both source files. -/
def isIllegalXml (c : Char) : Bool :=
  let n := c.toNat
  n ≤ 8 || n == 11 || n == 12 || (14 ≤ n && n ≤ 31)

def isAsciiDigit (c : Char) : Bool := 48 ≤ c.toNat && c.toNat ≤ 57

def isAsciiUpper (c : Char) : Bool := 65 ≤ c.toNat && c.toNat ≤ 90

def isAsciiLower (c : Char) : Bool := 97 ≤ c.toNat && c.toNat ≤ 122

def isAsciiAlnum (c : Char) : Bool := isAsciiDigit c || isAsciiUpper c || isAsciiLower c

/-- Python `str.strip` of trailing whitespace, structurally. -/
def dropTrailWs : List Char → List Char
  | [] => []
  | c :: rest =>
    let r := dropTrailWs rest
    if r.isEmpty && isPySpace c then [] else c :: r

/-- Python `str.strip()`: remove leading and trailing whitespace. -/
def pyStrip (l : List Char) : List Char := dropTrailWs (l.dropWhile isPySpace)

/-- Python `str.splitlines()` (worker; `cur` is the current line, reversed). -/
def slGo : List Char → List Char → List (List Char)
  | cur, [] => if cur.isEmpty then [] else [cur.reverse]
  | cur, '\r' :: '\n' :: rest => cur.reverse :: slGo [] rest
  | cur, c :: rest =>
    if isTermChar c then cur.reverse :: slGo [] rest else slGo (c :: cur) rest

def pySplitlines (l : List Char) : List (List Char) := slGo [] l

/-- Python `sep.join(parts)` for a list-of-chars separator. -/
def joinWithSep (sep : List Char) : List (List Char) → List Char
  | [] => []
  | [l] => l
  | l :: ls => l ++ sep ++ joinWithSep sep ls

/-- Worker for `re.split(r"\n\s*\n", txt, maxsplit=1)`: returns the part after
the first (greedily extended) blank-line match, if the pattern occurs. -/
def findBody : List Char → Option (List Char)
  | [] => none
  | '\n' :: rest =>
    let run := rest.takeWhile isPySpace
    if run.contains '\n' then
      some ((run.reverse.takeWhile (fun c => !(c == '\n'))).reverse ++ rest.dropWhile isPySpace)
    else findBody rest
  | _ :: rest => findBody rest

/-- Header/body split used by both pipelines: the part after the first
`\n\s*\n` match, or the whole text when there is none. -/
def splitBody (l : List Char) : List Char := (findBody l).getD l

/-- Worker for `re.split(r"\n{2,}", s)` (no maxsplit): the `sep` flag records
being inside a separator run whose piece boundary was already emitted. -/
def splitNNGo : Bool → List Char → List Char → List (List Char)
  | _, cur, [] => [cur.reverse]
  | true, cur, c :: rest =>
    if c == '\n' then splitNNGo true cur rest else splitNNGo false (c :: cur) rest
  | false, cur, '\n' :: '\n' :: rest => cur.reverse :: splitNNGo true [] rest
  | false, cur, c :: rest => splitNNGo false (c :: cur) rest

def splitNN (l : List Char) : List (List Char) := splitNNGo false [] l

/-- Python `s.replace("\r\n", "\n")`. -/
def replaceCRLF : List Char → List Char
  | '\r' :: '\n' :: rest => '\n' :: replaceCRLF rest
  | c :: rest => c :: replaceCRLF rest
  | [] => []

/-- Python `s.replace("\r", "\n")`. -/
def crToNl (l : List Char) : List Char := l.map (fun c => if c == '\r' then '\n' else c)

/-- Case-insensitive literal prefix test (`re.I` on an anchored literal
alternation); `pat` is given in lowercase. -/
def ciStartsWithL (l : List Char) (pat : List Char) : Bool :=
  (l.take pat.length).map Char.toLower == pat

/-- Case-insensitive substring search for a literal pattern (`re.search` with
`re.I` on a literal). -/
def containsCI (l : List Char) (pat : List Char) : Bool :=
  match l with
  | [] => pat.isEmpty
  | _ :: rest => ciStartsWithL l pat || containsCI rest pat

/-- The twelve header prefixes of `HEADER_PATTERN` in `news_csv_50.py`
(note: no `last-modified`, no `version`). -/
def newsHdrWords : List (List Char) :=
  ["archive-name:", "from:", "subject:", "path:", "xref:", "organization:",
   "lines:", "newsgroups:", "message-id:", "keywords:", "date:", "sender:"].map String.data

/-- The twelve header prefixes of the inline header regex in `deepcleane.py`
(note: no `date`, no `sender`). -/
def deepHdrWords : List (List Char) :=
  ["archive-name:", "from:", "subject:", "path:", "xref:", "organization:",
   "lines:", "newsgroups:", "message-id:", "keywords:", "last-modified:", "version:"].map String.data

def matchesHdr (ws : List (List Char)) (l : List Char) : Bool :=
  ws.any (fun w => ciStartsWithL l w)

/-- `QUOTE_LINE = ^\s*([>|\|])` of `news_csv_50.py`. -/
def quoteNews (l : List Char) : Bool :=
  match l.dropWhile isPySpace with
  | '>' :: _ => true
  | '|' :: _ => true
  | _ => false

/-- `SIG_SEP = ^\s*--\s*$` of `news_csv_50.py`. -/
def sigNews (l : List Char) : Bool :=
  match l.dropWhile isPySpace with
  | '-' :: '-' :: rest => rest.all isPySpace
  | _ => false

def isDashEq (c : Char) : Bool := c == '-' || c == '='

/-- Separator line `^\s*[-=]{3,}\s*$` of `news_csv_50.py`. -/
def sepNews (l : List Char) : Bool :=
  let t := l.dropWhile isPySpace
  decide (3 ≤ (t.takeWhile isDashEq).length) && (t.dropWhile isDashEq).all isPySpace

def writesPat : List Char := "writes:".data

def wrotePat : List Char := "wrote:".data

def inArtPat : List Char := "in article".data

/-- After `In article`, the pattern `\s*<` requires `<` as the first
non-whitespace character. -/
def afterWsIsLt (l : List Char) : Bool :=
  match l.dropWhile isPySpace with
  | '<' :: _ => true
  | _ => false

/-- `REPLY_MARKER = (writes:|wrote:|In article\s*<)` with `re.I`, searched
anywhere in the line (`news_csv_50.py`). -/
def inArticleNews : List Char → Bool
  | [] => false
  | c :: rest =>
    (ciStartsWithL (c :: rest) inArtPat && afterWsIsLt ((c :: rest).drop 10)) || inArticleNews rest

def replyNews (l : List Char) : Bool :=
  containsCI l writesPat || containsCI l wrotePat || inArticleNews l

/-- For `<.*?>` (no DOTALL): a `>` occurring before any newline. -/
def gtBeforeNl : List Char → Bool
  | [] => false
  | '>' :: _ => true
  | '\n' :: _ => false
  | _ :: rest => gtBeforeNl rest

/-- After `In article`, the `deepcleane.py` pattern `\s*<.*?>` requires `<` as
first non-whitespace character and then a `>` before the next newline. -/
def afterWsLtGt (l : List Char) : Bool :=
  match l.dropWhile isPySpace with
  | '<' :: rest => gtBeforeNl rest
  | _ => false

/-- `re.search(r"In article\s*<.*?>", line, re.I)` of `deepcleane.py`. -/
def inArticleDeep : List Char → Bool
  | [] => false
  | c :: rest =>
    (ciStartsWithL (c :: rest) inArtPat && afterWsLtGt ((c :: rest).drop 10)) || inArticleDeep rest

/-- Line scan of `extract_body_by_heuristic` (`news_csv_50.py` lines 63-75):
skip headers, quotes, reply markers and separator lines, stop at a signature
line. -/
def newsScan : List (List Char) → List (List Char)
  | [] => []
  | l :: ls =>
    if matchesHdr newsHdrWords l then newsScan ls
    else if quoteNews l then newsScan ls
    else if replyNews l then newsScan ls
    else if sigNews l then []
    else if sepNews l then newsScan ls
    else l :: newsScan ls

/-- `line.strip().startswith((">", "|"))` of `deepcleane.py`. -/
def deepQuote (l : List Char) : Bool :=
  match pyStrip l with
  | '>' :: _ => true
  | '|' :: _ => true
  | _ => false

/-- `line.strip().startswith("--")` of `deepcleane.py`. -/
def deepSig (l : List Char) : Bool :=
  match pyStrip l with
  | '-' :: '-' :: _ => true
  | _ => false

/-- Line scan of `clean_body` (`deepcleane.py` lines 23-43). -/
def deepScan : List (List Char) → List (List Char)
  | [] => []
  | l :: ls =>
    if matchesHdr deepHdrWords l then deepScan ls
    else if deepQuote l then deepScan ls
    else if deepSig l then []
    else if inArticleDeep l then deepScan ls
    else if containsCI l writesPat || containsCI l wrotePat then deepScan ls
    else l :: deepScan ls

/-- Token test for `\S+@\S+`: a maximal non-whitespace token is replaced
exactly when it has an `@` that is neither its first nor its last
character. -/
def hasAtMid : List Char → Bool
  | '@' :: _ :: _ => true
  | _ :: r => hasAtMid r
  | [] => false

def emailTokB : List Char → Bool
  | [] => false
  | _ :: rest => hasAtMid rest

/-- Scanner state for token-wise substitutions: at a token boundary, inside a
kept token, or inside a token being dropped. -/
inductive TokSt where
  | idle : TokSt
  | keep : TokSt
  | skip : TokSt

/-- Worker of `re.sub(r"\S+@\S+", " ", body)`. -/
def subEmailGo : TokSt → List Char → List Char
  | _, [] => []
  | .idle, c :: rest =>
    if isPySpace c then c :: subEmailGo .idle rest
    else if emailTokB (c :: rest.takeWhile (fun d => !isPySpace d)) then ' ' :: subEmailGo .skip rest
    else c :: subEmailGo .keep rest
  | .keep, c :: rest =>
    if isPySpace c then c :: subEmailGo .idle rest else c :: subEmailGo .keep rest
  | .skip, c :: rest =>
    if isPySpace c then c :: subEmailGo .idle rest else subEmailGo .skip rest

def subEmail (l : List Char) : List Char := subEmailGo .idle l

/-- Worker of `re.sub(r"http\S+|www\.\S+", " ", body)`; the flag records being
inside a matched token whose remainder must be dropped. -/
def subUrlGo : Bool → List Char → List Char
  | _, [] => []
  | true, c :: rest => if isPySpace c then c :: subUrlGo false rest else subUrlGo true rest
  | false, 'h' :: 't' :: 't' :: 'p' :: c :: rest =>
    if isPySpace c then 'h' :: subUrlGo false ('t' :: 't' :: 'p' :: c :: rest)
    else ' ' :: subUrlGo true (c :: rest)
  | false, 'w' :: 'w' :: 'w' :: '.' :: c :: rest =>
    if isPySpace c then 'w' :: subUrlGo false ('w' :: 'w' :: '.' :: c :: rest)
    else ' ' :: subUrlGo true (c :: rest)
  | false, c :: rest => c :: subUrlGo false rest

def subUrl (l : List Char) : List Char := subUrlGo false l

/-- Matching test for `http\S+|www\.\S+`: some occurrence of `http` or `www.`
followed immediately by a non-whitespace character. -/
def hasUrl : List Char → Bool
  | 'h' :: 't' :: 't' :: 'p' :: c :: rest =>
    !isPySpace c || hasUrl ('t' :: 't' :: 'p' :: c :: rest)
  | 'w' :: 'w' :: 'w' :: '.' :: c :: rest =>
    !isPySpace c || hasUrl ('w' :: 'w' :: '.' :: c :: rest)
  | _ :: rest => hasUrl rest
  | [] => false

/-- After a `<`, the pattern `[^>]+>` matches exactly when the next character
exists, is not `>`, and a `>` occurs later. -/
def tagHead : List Char → Bool
  | [] => false
  | d :: rest => !(d == '>') && rest.contains '>'

/-- Worker of `re.sub(r"<[^>]+>", " ", body)`; the flag records being inside a
match, dropping characters up to and including the closing `>`. -/
def subTagGo : Bool → List Char → List Char
  | _, [] => []
  | true, c :: rest => if c == '>' then subTagGo false rest else subTagGo true rest
  | false, '<' :: rest =>
    if tagHead rest then ' ' :: subTagGo true rest else '<' :: subTagGo false rest
  | false, c :: rest => c :: subTagGo false rest

def subTag (l : List Char) : List Char := subTagGo false l

/-- Matching test for `<[^>]+>`. -/
def hasTag : List Char → Bool
  | '<' :: rest => tagHead rest || hasTag rest
  | _ :: rest => hasTag rest
  | [] => false

/-- Matching test for `\S+@\S+`: an `@` with non-whitespace characters
immediately on both sides. -/
def hasEmail : List Char → Bool
  | a :: '@' :: b :: rest => (!isPySpace a && !isPySpace b) || hasEmail ('@' :: b :: rest)
  | _ :: rest => hasEmail rest
  | [] => false

/-- Character kept by `re.sub(r"[^a-zA-Z0-9\s\.\,\!\?]", " ", body)`: ASCII
alphanumerics, whitespace, and the code points of `. , ! ?`. -/
def allowedA (c : Char) : Bool :=
  isAsciiAlnum c || isPySpace c || c.toNat == 46 || c.toNat == 44 || c.toNat == 33 || c.toNat == 63

def charSub (l : List Char) : List Char := l.map (fun c => if allowedA c then c else ' ')

/-- Worker of `re.sub(r"\n{2,}", "\n", body)`; the flag records being inside a
newline run for which a single newline was already emitted. -/
def collapseNlGo : Bool → List Char → List Char
  | _, [] => []
  | true, c :: rest => if c == '\n' then collapseNlGo true rest else c :: collapseNlGo false rest
  | false, '\n' :: '\n' :: rest => '\n' :: collapseNlGo true rest
  | false, c :: rest => c :: collapseNlGo false rest

def collapseNl (l : List Char) : List Char := collapseNlGo false l

/-- Worker of `re.sub(r"\s{2,}", " ", body)`; the flag records being inside a
whitespace run for which a single space was already emitted. -/
def collapseWsGo : Bool → List Char → List Char
  | _, [] => []
  | true, c :: rest => if isPySpace c then collapseWsGo true rest else c :: collapseWsGo false rest
  | false, c :: rest =>
    if isPySpace c then
      match rest with
      | [] => [c]
      | d :: _ => if isPySpace d then ' ' :: collapseWsGo true rest else c :: collapseWsGo false rest
    else c :: collapseWsGo false rest

def collapseWs (l : List Char) : List Char := collapseWsGo false l

def pyLowerL (l : List Char) : List Char := l.map Char.toLower

def illegalFilter (l : List Char) : List Char := l.filter (fun c => !isIllegalXml c)

/-- The cleaning function `clean_body` of `deepcleane.py` (lines 15-55) on the
string case (the `pd.isna` guard is modelled by `clean_body_pd` below). -/
def cleanBodyL (l : List Char) : List Char :=
  let body := splitBody l
  let kept := deepScan (pySplitlines body)
  let b1 := joinWithSep ['\n'] kept
  let b2 := subEmail b1
  let b3 := subUrl b2
  let b4 := subTag b3
  let b5 := charSub b4
  let b6 := collapseNl b5
  let b7 := collapseWs b6
  let b8 := pyStrip (pyLowerL b7)
  illegalFilter b8

def clean_body (s : String) : String := String.mk (cleanBodyL s.data)

/-- A pandas cell value reaching `clean_body`: a string, a missing value
(`None` / `NaN`, for which `pd.isna` is true), or a non-string non-missing
value such as an `int` (for which `pd.isna` is false). -/
inductive PdValue where
  | str (s : String) : PdValue
  | noneVal : PdValue
  | nanVal : PdValue
  | intVal (n : Int) : PdValue

/-- `clean_body` including its `pd.isna` guard: missing values map to `""`;
a non-string, non-missing value reaches `re.split`, which raises `TypeError`
(modelled as `Except.error`). -/
def clean_body_pd : PdValue → Except String String
  | .noneVal => .ok ""
  | .nanVal => .ok ""
  | .str s => .ok (clean_body s)
  | .intVal _ => .error "TypeError: expected string or bytes-like object"

def MIN_BODY_LEN : Nat := 60

def MAX_FILES_PER_CATEGORY : Nat := 500

/-- Python `max(paras, key=len)`: the first element of maximal length. -/
def maxByLen : List (List Char) → List Char
  | [] => []
  | x :: xs =>
    let m := maxByLen xs
    if m.length > x.length then m else x

/-- The heuristic body extractor `extract_body_by_heuristic` of
`news_csv_50.py` (lines 58-86). -/
def extract_body_by_heuristic (raw : String) : String :=
  let txt := crToNl (replaceCRLF raw.data)
  let body := splitBody txt
  let kept := newsScan (pySplitlines body)
  let cleaned := subTag (pyStrip (joinWithSep ['\n'] kept))
  let paras0 := ((splitNN cleaned).map pyStrip).filter (fun p => !p.isEmpty)
  let paras :=
    if paras0.isEmpty then
      [joinWithSep [' '] (((pySplitlines cleaned).map pyStrip).filter (fun x => !x.isEmpty))]
    else paras0
  match paras.find? (fun p => decide (MIN_BODY_LEN ≤ p.length)) with
  | some p => String.mk p
  | none => String.mk (maxByLen paras)

/-- The envelope-success path of `extract_main_body_from_file`
(`news_csv_50.py` lines 98-105), as a function of the text returned by the
envelope parser: normalize `\r\n`, pick the first long non-quote paragraph,
drop its header-looking lines, and otherwise fall back to
`extract_body_by_heuristic`. -/
def extract_main_body_from_text (text : String) : String :=
  let t := replaceCRLF text.data
  let paras := ((splitNN t).map pyStrip).filter (fun p => !p.isEmpty)
  match paras.find? (fun p => decide (MIN_BODY_LEN ≤ p.length) && !quoteNews p) with
  | some p =>
    String.mk (pyStrip (joinWithSep ['\n']
      ((pySplitlines p).filter (fun ln => !matchesHdr newsHdrWords ln))))
  | none => extract_body_by_heuristic (String.mk t)

/-- `sanitize_for_excel` of `news_csv_50.py`: a leading `=`, `+`, `-` or `@`
is neutralized with a leading apostrophe. -/
def sanitize_for_excel (s : String) : String :=
  match s.data with
  | c :: _ =>
    if c == '=' || c == '+' || c == '-' || c == '@' then String.mk ('\'' :: s.data) else s
  | [] => s

/-- `remove_illegal_xml_chars` of both source files, on strings. -/
def remove_illegal_xml_chars (s : String) : String := String.mk (illegalFilter s.data)

/-- Per-row logic of `convert_20ng_to_excel` (`news_csv_50.py` lines 156-176)
as a function of the extracted body: drop empty or short bodies, then apply
formula sanitization and the illegal-character strip to the kept text. -/
def assembleRowText (body : String) : Option String :=
  if body.data.isEmpty || (pyStrip body.data).length < MIN_BODY_LEN then none
  else some (remove_illegal_xml_chars (sanitize_for_excel body))

/-- Per-row logic of the `deepcleane.py` entry point (lines 69-79): clean the
text, drop rows whose stripped cleaned text is shorter than 60, and strip
illegal characters from the kept text. -/
def deepPipelineRow (text : String) : Option String :=
  let t := clean_body text
  if (pyStrip t.data).length < 60 then none else some (remove_illegal_xml_chars t)

/-- An already-parsed mail message, abstracting the output of
`BytesParser(policy=default).parsebytes`: either a single-part message or a
multipart container with subparts.  Decode failures of individual parts are
not modelled. -/
inductive PyMsg where
  | simple (ct : String) (content : String) : PyMsg
  | multi (ct : String) (parts : List PyMsg) : PyMsg

mutual

/-- Python `EmailMessage.walk()`: the message itself, then its subparts in
document order, recursively. -/
def msgWalk : PyMsg → List PyMsg
  | .simple ct c => [.simple ct c]
  | .multi ct ps => .multi ct ps :: msgWalkList ps

def msgWalkList : List PyMsg → List PyMsg
  | [] => []
  | m :: ms => msgWalk m ++ msgWalkList ms

end

/-- Stripped content of a walked part when its content type is `text/plain`. -/
def partPlainText : PyMsg → Option (List Char)
  | .simple ct c => if ct == "text/plain" then some (pyStrip c.data) else none
  | .multi _ _ => none

/-- `try_extract_from_eml_bytes` of `news_csv_50.py` (lines 33-55) on a
parsed message: multipart messages collect the stripped `text/plain` parts in
walk order and join the non-empty ones with a blank line; single-part
messages return their stripped content. -/
def try_extract_from_eml : PyMsg → String
  | .multi ct ps =>
    String.mk (joinWithSep ['\n', '\n']
      (((msgWalk (.multi ct ps)).filterMap partPlainText).filter (fun p => !p.isEmpty)))
  | .simple _ c => String.mk (pyStrip c.data)

/-- A root directory for the locator: named subdirectories with their file
listings, plus files directly in the root. -/
structure RootDir where
  subdirs : List (String × List String)
  rootFiles : List String

/-- A located message entry (the `path` field of the source is determined by
`category` and `filename` and is omitted). -/
structure LocItem where
  filename : String
  category : String
deriving DecidableEq, Repr

/-- Python string `<`: lexicographic comparison by code point. -/
def ltCharList : List Char → List Char → Bool
  | [], [] => false
  | [], _ :: _ => true
  | _ :: _, [] => false
  | a :: as, b :: bs =>
    if a.toNat < b.toNat then true
    else if b.toNat < a.toNat then false
    else ltCharList as bs

def strLt (x y : String) : Bool := ltCharList x.data y.data

/-- Python `sorted` on strings: insertion sort by code-point order. -/
def sortStrIns (x : String) : List String → List String
  | [] => [x]
  | y :: ys => if strLt x y then x :: y :: ys else y :: sortStrIns x ys

def sortStr : List String → List String
  | [] => []
  | x :: xs => sortStrIns x (sortStr xs)

/-- Python `name.lower().endswith(".eml")`. -/
def isEmlName (s : String) : Bool := (pyLowerL s.data).reverse.take 4 == ['l', 'm', 'e', '.']

def dirFiles (fs : RootDir) (d : String) : List String := (fs.subdirs.lookup d).getD []

def isDirName (fs : RootDir) (d : String) : Bool := fs.subdirs.any (fun p => p.1 == d)

/-- Recognized message files of one subdirectory, in `sorted` order
(`news_csv_50.py` line 123). -/
def dirEmls (fs : RootDir) (d : String) : List String :=
  (sortStr (dirFiles fs d)).filter isEmlName

/-- `collect_eml_files` of `news_csv_50.py` (lines 114-140): per-subdirectory
recognized files capped at `cap`; when no subdirectory has a recognized file,
fall back to the `.eml`-suffixed entries of the root listing itself under the
same cap, with category `"uncategorized"`. -/
def collect_eml_files (fs : RootDir) (cap : Nat) : List LocItem :=
  let names := sortStr (fs.subdirs.map Prod.fst ++ fs.rootFiles)
  let sds := names.filter (isDirName fs)
  let hasValid := sds.any (fun d => !(dirEmls fs d).isEmpty)
  if hasValid then
    sds.flatMap (fun d => ((dirEmls fs d).take cap).map (fun f => ⟨f, d⟩))
  else
    ((names.filter isEmlName).take cap).map (fun f => ⟨f, "uncategorized"⟩)

/-- Modelled from the spec: the CleanedText invariant of section 3 — "no
email addresses, no URLs, no HTML tags, only lowercase alphanumerics,
whitespace, and `. , ! ?` punctuation".  Used to compare the spec's claimed
invariant with what the code produces. -/
def cleanedTextOk (s : String) : Bool :=
  !hasEmail s.data && !hasUrl s.data && !hasTag s.data &&
    s.data.all (fun c => isAsciiLower c || isAsciiDigit c || isPySpace c ||
      c == '.' || c == ',' || c == '!' || c == '?')

/-!
Basic character-level lemmas.
-/

theorem char_toNat_ofNat (n : Nat) (h : n < 55296) : (Char.ofNat n).toNat = n := by
  unfold Char.ofNat
  rw [dif_pos (Or.inl h)]
  simp [Char.ofNatAux, Char.toNat, UInt32.toNat, BitVec.toNat_ofNatLt]

theorem toLower_toNat (c : Char) :
    (Char.toLower c).toNat = if 65 ≤ c.toNat ∧ c.toNat ≤ 90 then c.toNat + 32 else c.toNat := by
  unfold Char.toLower
  split <;> rename_i h
  · rw [if_pos (by omega)]
    exact char_toNat_ofNat _ (by omega)
  · rw [if_neg (by omega)]

theorem toLower_eq_toNat {d c0 : Char} (h : Char.toLower d = c0) :
    (65 ≤ d.toNat ∧ d.toNat ≤ 90 ∧ c0.toNat = d.toNat + 32) ∨
      (¬(65 ≤ d.toNat ∧ d.toNat ≤ 90) ∧ c0.toNat = d.toNat) := by
  have hn := toLower_toNat d
  rw [h] at hn
  by_cases hc : 65 ≤ d.toNat ∧ d.toNat ≤ 90
  · rw [if_pos hc] at hn
    exact Or.inl ⟨hc.1, hc.2, hn⟩
  · rw [if_neg hc] at hn
    exact Or.inr ⟨hc, hn⟩

/-!
Closed evaluation theorems: counterexamples and concrete scenario checks.
-/

/-- C1 (counterexample): a row emitted by the assembler whose text violates
the CleanedText invariant.  The envelope text is a single long paragraph with
uppercase letters and an email address; the lightweight selection pass keeps
it verbatim, the length filter passes it, and sanitization leaves it
unchanged, so the emitted row text contains `@`, uppercase letters and an
email pattern. -/
theorem C1_counterexample :
    assembleRowText (extract_main_body_from_text
        "THIS UPPERCASE BODY CONTACT me@EXAMPLE.COM HAS PLENTY OF LENGTH FOR THE FILTER.")
      = some "THIS UPPERCASE BODY CONTACT me@EXAMPLE.COM HAS PLENTY OF LENGTH FOR THE FILTER." ∧
    cleanedTextOk "THIS UPPERCASE BODY CONTACT me@EXAMPLE.COM HAS PLENTY OF LENGTH FOR THE FILTER." = false := by
  constructor
  · decide
  · decide

/-- C2 (counterexample): a body of 80 characters, 60 of which are the illegal
control character `\x01`, passes the length filter (stripped length 80), but
after the illegal-character strip the emitted row text has stripped length
20 < 60. -/
theorem C2_counterexample :
    assembleRowText (extract_body_by_heuristic (String.mk
        (List.replicate 10 'a' ++ List.replicate 60 '\x01' ++ List.replicate 10 'a')))
      = some (String.mk (List.replicate 20 'a')) ∧
    (pyStrip (String.mk (List.replicate 20 'a')).data).length < MIN_BODY_LEN := by
  constructor
  · decide
  · decide

/-- C3 (counterexample): `clean_body` is not idempotent.  On `"HTTPfoo"` the
first pass lowercases the text to `"httpfoo"`, which the second pass then
removes entirely as a URL-pattern match. -/
theorem C3_counterexample :
    clean_body "HTTPfoo" = "httpfoo" ∧ clean_body (clean_body "HTTPfoo") = "" ∧
    clean_body (clean_body "HTTPfoo") ≠ clean_body "HTTPfoo" := by
  refine ⟨by decide, by decide, by decide⟩

/-- C4 (counterexample): the output of `clean_body` can contain a substring
matching the URL pattern `http\S+`, because lowercasing happens after URL
removal. -/
theorem C4_counterexample :
    clean_body "HTTPXY" = "httpxy" ∧ hasUrl (clean_body "HTTPXY").data = true := by
  refine ⟨by decide, by decide⟩

/-- C5 (counterexample): the news-side scan retains a `Last-Modified:` line
(its header pattern lacks that prefix), and the deepcleane scan retains a
`Date:` line (its header pattern lacks that prefix), so neither scanner drops
all fourteen claimed prefixes. -/
theorem C5_counterexample :
    newsScan ["Last-Modified: now".data] = ["Last-Modified: now".data] ∧
    deepScan ["Date: today".data] = ["Date: today".data] := by
  refine ⟨by decide, by decide⟩

/-- C6 (counterexample): in the deepcleane scan a `---` separator line stops
the scan (discarding the following lines) instead of being dropped with the
scan continuing, and a `===` separator line is retained rather than
dropped. -/
theorem C6_counterexample :
    deepScan ["---".data, "keep me".data] = [] ∧
    deepScan ["---".data, "keep me".data] ≠ ["keep me".data] ∧
    deepScan ["===".data, "keep me".data] = ["===".data, "keep me".data] := by
  refine ⟨by decide, by decide, by decide⟩

/-- C7 (counterexample): with a root containing an empty subdirectory named
`b.eml` and a root file `a.eml`, no subdirectory contains a recognized file,
and the fallback returns the directory entry `b.eml` as well, although it is
not one of the root's files. -/
theorem C7_counterexample :
    collect_eml_files ⟨[("b.eml", [])], ["a.eml"]⟩ 500 =
      [⟨"a.eml", "uncategorized"⟩, ⟨"b.eml", "uncategorized"⟩] ∧
    "b.eml" ∉ (⟨[("b.eml", [])], ["a.eml"]⟩ : RootDir).rootFiles := by
  refine ⟨by decide, by decide⟩

/-- C9 (counterexample): a non-string, non-missing value such as the integer
`3` does not map to the empty string; it raises a `TypeError` inside
`re.split`. -/
theorem C9_counterexample :
    clean_body_pd (.intVal 3) = .error "TypeError: expected string or bytes-like object" ∧
    clean_body_pd (.intVal 3) ≠ .ok "" := by
  refine ⟨rfl, ?_⟩
  intro h
  exact Except.noConfusion h

/-- C9 (amended): missing values (`None` / `NaN`) map to the empty string and
string inputs are cleaned without error, but a non-string non-missing value
raises a `TypeError` rather than mapping to the empty string. -/
theorem C9_missing_values_ok :
    clean_body_pd PdValue.noneVal = .ok "" ∧ clean_body_pd PdValue.nanVal = .ok "" ∧
    (∀ s, clean_body_pd (PdValue.str s) = .ok (clean_body s)) ∧
    (∀ n, clean_body_pd (PdValue.intVal n)
      = .error "TypeError: expected string or bytes-like object") :=
  ⟨rfl, rfl, fun _ => rfl, fun _ => rfl⟩

/-- C10: in the envelope-success path the minimum-length threshold is tested
against the selected paragraph before its header-looking lines are removed:
on a 76-character paragraph made of two header lines, the paragraph is
selected (so the fallback heuristic never runs), yet the returned text is
empty, far below `MIN_BODY_LEN`. -/
theorem C10_threshold_before_header_removal :
    (((splitNN (replaceCRLF ("From: somebody@example.com with padding here\nSubject: a subject line of text").data)).map pyStrip).filter (fun p => !p.isEmpty)).find?
        (fun p => decide (MIN_BODY_LEN ≤ p.length) && !quoteNews p)
      = some ("From: somebody@example.com with padding here\nSubject: a subject line of text").data ∧
    extract_main_body_from_text
        "From: somebody@example.com with padding here\nSubject: a subject line of text" = "" ∧
    (pyStrip (extract_main_body_from_text
        "From: somebody@example.com with padding here\nSubject: a subject line of text").data).length
      < MIN_BODY_LEN := by
  refine ⟨by decide, by decide, by decide⟩

/-- C8: for any multipart message whose walked `text/plain` parts are exactly
`"Part one."` and `"Part two."` in that order, the envelope parser returns
the single string `"Part one.\n\nPart two."`, joining the parts with a
blank-line separator in original order. -/
theorem C8_multipart_join (ct : String) (ps : List PyMsg)
    (h : (msgWalkList ps).filterMap partPlainText = ["Part one.".data, "Part two.".data]) :
    try_extract_from_eml (.multi ct ps) = "Part one.\n\nPart two." := by
  simp only [try_extract_from_eml, msgWalk, List.filterMap_cons, partPlainText, h]
  decide

/-- Witness for C8 at a concrete two-part message. -/
theorem C8_multipart_join_witness :
    try_extract_from_eml (.multi "multipart/mixed"
      [.simple "text/plain" "Part one.", .simple "text/plain" "Part two."])
      = "Part one.\n\nPart two." :=
  C8_multipart_join "multipart/mixed" _ (by decide)

theorem char_eq_of_toNat {a b : Char} (h : a.toNat = b.toNat) : a = b :=
  Char.eq_of_val_eq (UInt32.ext h)

theorem isPySpace_iff (c : Char) : isPySpace c = true ↔
    (9 ≤ c.toNat ∧ c.toNat ≤ 13) ∨ c.toNat = 32 ∨ (28 ≤ c.toNat ∧ c.toNat ≤ 31) ∨
      c.toNat = 133 ∨ c.toNat = 160 ∨ c.toNat = 5760 ∨
      (8192 ≤ c.toNat ∧ c.toNat ≤ 8202) ∨ c.toNat = 8232 ∨ c.toNat = 8233 ∨
      c.toNat = 8239 ∨ c.toNat = 8287 ∨ c.toNat = 12288 := by
  unfold isPySpace
  simp
  tauto

theorem isDashEq_iff (c : Char) : isDashEq c = true ↔ c.toNat = 45 ∨ c.toNat = 61 := by
  unfold isDashEq
  simp only [Bool.or_eq_true, beq_iff_eq]
  constructor
  · rintro (rfl | rfl)
    · exact Or.inl rfl
    · exact Or.inr rfl
  · rintro (h | h)
    · exact Or.inl (char_eq_of_toNat h)
    · exact Or.inr (char_eq_of_toNat h)

/-- Characters appearing in a signature or separator line: whitespace, dash
or equals. -/
def wsOrDash (c : Char) : Bool := isPySpace c || isDashEq c

theorem wsOrDash_toNat {c : Char} (h : wsOrDash c = true) :
    (9 ≤ c.toNat ∧ c.toNat ≤ 13) ∨ c.toNat = 32 ∨ (28 ≤ c.toNat ∧ c.toNat ≤ 31) ∨
      c.toNat = 133 ∨ c.toNat = 160 ∨ c.toNat = 5760 ∨
      (8192 ≤ c.toNat ∧ c.toNat ≤ 8202) ∨ c.toNat = 8232 ∨ c.toNat = 8233 ∨
      c.toNat = 8239 ∨ c.toNat = 8287 ∨ c.toNat = 12288 ∨ c.toNat = 45 ∨ c.toNat = 61 := by
  unfold wsOrDash at h
  rcases Bool.or_eq_true_iff.mp h with h | h
  · have := (isPySpace_iff c).mp h
    omega
  · have := (isDashEq_iff c).mp h
    omega

theorem dropTrailWs_sublist (l : List Char) : (dropTrailWs l).Sublist l := by
  induction l with
  | nil => simp [dropTrailWs]
  | cons c rest ih =>
    rw [dropTrailWs]
    split
    · exact List.nil_sublist _
    · exact ih.cons₂ c

theorem pyStrip_sublist (l : List Char) : (pyStrip l).Sublist l :=
  (dropTrailWs_sublist _).trans (List.dropWhile_sublist _)

theorem mem_pyStrip {c : Char} {l : List Char} (h : c ∈ pyStrip l) : c ∈ l :=
  (pyStrip_sublist l).mem h

theorem ciStartsWith_mem {l pat : List Char} (h : ciStartsWithL l pat = true) :
    ∀ c0 ∈ pat, ∃ d ∈ l, Char.toLower d = c0 := by
  unfold ciStartsWithL at h
  rw [beq_iff_eq] at h
  intro c0 hc0
  rw [← h] at hc0
  rcases List.mem_map.mp hc0 with ⟨d, hd, hlow⟩
  exact ⟨d, (List.take_sublist _ _).mem hd, hlow⟩

theorem containsCI_mem {pat : List Char} (hne : pat.isEmpty = false) :
    ∀ {l}, containsCI l pat = true → ∀ c0 ∈ pat, ∃ d ∈ l, Char.toLower d = c0 := by
  intro l
  induction l with
  | nil =>
    intro h
    rw [containsCI, hne] at h
    exact absurd h (by simp)
  | cons c rest ih =>
    intro h c0 hc0
    rw [containsCI] at h
    rcases Bool.or_eq_true_iff.mp h with h | h
    · exact ciStartsWith_mem h c0 hc0
    · rcases ih h c0 hc0 with ⟨d, hd, hlow⟩
      exact ⟨d, List.mem_cons_of_mem _ hd, hlow⟩

theorem matchesHdr_colon {words : List (List Char)} {l : List Char}
    (hw : ∀ w ∈ words, ':' ∈ w) (h : matchesHdr words l = true) :
    ∃ d ∈ l, Char.toLower d = ':' := by
  unfold matchesHdr at h
  rcases List.any_eq_true.mp h with ⟨w, hwmem, hci⟩
  exact ciStartsWith_mem hci ':' (hw w hwmem)

theorem afterWsIsLt_mem {l : List Char} (h : afterWsIsLt l = true) : '<' ∈ l := by
  unfold afterWsIsLt at h
  split at h
  · rename_i heq
    exact (List.dropWhile_sublist _).mem (heq ▸ List.mem_cons_self _ _)
  · exact absurd h (by simp)

theorem afterWsLtGt_mem {l : List Char} (h : afterWsLtGt l = true) : '<' ∈ l := by
  unfold afterWsLtGt at h
  split at h
  · rename_i heq
    exact (List.dropWhile_sublist _).mem (heq ▸ List.mem_cons_self _ _)
  · exact absurd h (by simp)

theorem inArticleNews_lt {l : List Char} (h : inArticleNews l = true) : '<' ∈ l := by
  induction l with
  | nil => rw [inArticleNews] at h; exact absurd h (by simp)
  | cons c rest ih =>
    rw [inArticleNews] at h
    rcases Bool.or_eq_true_iff.mp h with h | h
    · exact (List.drop_sublist _ _).mem (afterWsIsLt_mem (Bool.and_eq_true_iff.mp h).2)
    · exact List.mem_cons_of_mem _ (ih h)

theorem inArticleDeep_lt {l : List Char} (h : inArticleDeep l = true) : '<' ∈ l := by
  induction l with
  | nil => rw [inArticleDeep] at h; exact absurd h (by simp)
  | cons c rest ih =>
    rw [inArticleDeep] at h
    rcases Bool.or_eq_true_iff.mp h with h | h
    · exact (List.drop_sublist _ _).mem (afterWsLtGt_mem (Bool.and_eq_true_iff.mp h).2)
    · exact List.mem_cons_of_mem _ (ih h)

theorem replyNews_witness_char {l : List Char} (h : replyNews l = true) :
    (∃ d ∈ l, Char.toLower d = ':') ∨ '<' ∈ l := by
  unfold replyNews at h
  rcases Bool.or_eq_true_iff.mp h with h | h
  · rcases Bool.or_eq_true_iff.mp h with h | h
    · exact Or.inl (containsCI_mem (by decide) h ':' (by decide))
    · exact Or.inl (containsCI_mem (by decide) h ':' (by decide))
  · exact Or.inr (inArticleNews_lt h)

theorem sig_shape {l : List Char} (h : sigNews l = true) : ∀ c ∈ l, wsOrDash c = true := by
  unfold sigNews at h
  split at h
  · rename_i rest heq
    intro c hc
    rw [← List.takeWhile_append_dropWhile isPySpace l] at hc
    rcases List.mem_append.mp hc with hc | hc
    · exact Bool.or_eq_true_iff.mpr (Or.inl (List.mem_takeWhile_imp hc))
    · rw [heq] at hc
      rcases List.mem_cons.mp hc with rfl | hc
      · decide
      · rcases List.mem_cons.mp hc with rfl | hc
        · decide
        · exact Bool.or_eq_true_iff.mpr (Or.inl (List.all_eq_true.mp h c hc))
  · exact absurd h (by simp)

theorem sep_shape {l : List Char} (h : sepNews l = true) : ∀ c ∈ l, wsOrDash c = true := by
  unfold sepNews at h
  rcases Bool.and_eq_true_iff.mp h with ⟨h1, h2⟩
  intro c hc
  rw [← List.takeWhile_append_dropWhile isPySpace l] at hc
  rcases List.mem_append.mp hc with hc | hc
  · exact Bool.or_eq_true_iff.mpr (Or.inl (List.mem_takeWhile_imp hc))
  · rw [← List.takeWhile_append_dropWhile isDashEq (l.dropWhile isPySpace)] at hc
    rcases List.mem_append.mp hc with hc | hc
    · exact Bool.or_eq_true_iff.mpr (Or.inr (List.mem_takeWhile_imp hc))
    · exact Bool.or_eq_true_iff.mpr (Or.inl (List.all_eq_true.mp h2 c hc))

theorem shape_no_colon {l : List Char} (hsh : ∀ c ∈ l, wsOrDash c = true) {d : Char}
    (hd : d ∈ l) (hlow : Char.toLower d = ':') : False := by
  have hc := wsOrDash_toNat (hsh d hd)
  have h58 : (':' : Char).toNat = 58 := rfl
  rcases toLower_eq_toNat hlow with ⟨h1, h2, h3⟩ | ⟨h1, h3⟩ <;> omega

theorem matchesHdr_false_of_shape {words : List (List Char)} {l : List Char}
    (hw : ∀ w ∈ words, ':' ∈ w) (hsh : ∀ c ∈ l, wsOrDash c = true) :
    matchesHdr words l = false := by
  cases hx : matchesHdr words l with
  | false => rfl
  | true =>
    exfalso
    rcases matchesHdr_colon hw hx with ⟨d, hd, hlow⟩
    exact shape_no_colon hsh hd hlow

theorem quoteNews_false_of_shape {l : List Char} (hsh : ∀ c ∈ l, wsOrDash c = true) :
    quoteNews l = false := by
  cases hx : quoteNews l with
  | false => rfl
  | true =>
    exfalso
    unfold quoteNews at hx
    split at hx
    · rename_i heq
      have hm : '>' ∈ l.dropWhile isPySpace := by rw [heq]; exact List.mem_cons_self _ _
      exact absurd (hsh _ ((List.dropWhile_sublist _).mem hm)) (by decide)
    · rename_i heq
      have hm : '|' ∈ l.dropWhile isPySpace := by rw [heq]; exact List.mem_cons_self _ _
      exact absurd (hsh _ ((List.dropWhile_sublist _).mem hm)) (by decide)
    · exact absurd hx (by simp)

theorem replyNews_false_of_shape {l : List Char} (hsh : ∀ c ∈ l, wsOrDash c = true) :
    replyNews l = false := by
  cases hx : replyNews l with
  | false => rfl
  | true =>
    exfalso
    rcases replyNews_witness_char hx with ⟨d, hd, hlow⟩ | hlt
    · exact shape_no_colon hsh hd hlow
    · exact absurd (hsh _ hlt) (by decide)

theorem matchesHdr_first_lower {words : List (List Char)} {l : List Char}
    (hw : words.all (fun w => match w with | c :: _ => isAsciiLower c | [] => false) = true)
    (h : matchesHdr words l = true) :
    ∃ d t, l = d :: t ∧ isAsciiLower (Char.toLower d) = true := by
  unfold matchesHdr at h
  rcases List.any_eq_true.mp h with ⟨w, hwmem, hci⟩
  have hwl := List.all_eq_true.mp hw w hwmem
  cases w with
  | nil => exact absurd hwl (by simp)
  | cons c0 t =>
    unfold ciStartsWithL at hci
    rw [beq_iff_eq] at hci
    cases l with
    | nil => simp at hci
    | cons d l2 =>
      refine ⟨d, l2, rfl, ?_⟩
      have hdc : Char.toLower d = c0 := by
        have := congrArg List.head? hci
        simpa using this
      rw [hdc]
      exact hwl

theorem dropTrailWs_cons_head {u : List Char} {c : Char} {r : List Char}
    (h : dropTrailWs u = c :: r) : ∃ t, u = c :: t := by
  cases u with
  | nil => simp [dropTrailWs] at h
  | cons a rest =>
    rw [dropTrailWs] at h
    split at h
    · exact absurd h (by simp)
    · injection h with h1 h2
      exact ⟨rest, by rw [h1]⟩

theorem deepSig_strip {l : List Char} (h : deepSig l = true) :
    ∃ t, pyStrip l = '-' :: '-' :: t := by
  unfold deepSig at h
  split at h
  · rename_i t heq
    exact ⟨t, heq⟩
  · exact absurd h (by simp)

/-- C5 (amended): each scanner drops every line matching its own header
pattern: no line of the retained text matches the scanner's twelve
case-insensitive prefixes. -/
theorem C5_scanners_drop_their_headers :
    (∀ ls l, l ∈ newsScan ls → matchesHdr newsHdrWords l = false) ∧
    (∀ ls l, l ∈ deepScan ls → matchesHdr deepHdrWords l = false) := by
  constructor
  · intro ls
    induction ls with
    | nil => intro l h; rw [newsScan] at h; exact absurd h (by simp)
    | cons a as ih =>
      intro l h
      rw [newsScan] at h
      split at h
      · exact ih l h
      · split at h
        · exact ih l h
        · split at h
          · exact ih l h
          · split at h
            · exact absurd h (by simp)
            · split at h
              · exact ih l h
              · rcases List.mem_cons.mp h with rfl | h
                · rename_i h1 h2 h3 h4 h5
                  simpa using h1
                · exact ih l h
  · intro ls
    induction ls with
    | nil => intro l h; rw [deepScan] at h; exact absurd h (by simp)
    | cons a as ih =>
      intro l h
      rw [deepScan] at h
      split at h
      · exact ih l h
      · split at h
        · exact ih l h
        · split at h
          · exact absurd h (by simp)
          · split at h
            · exact ih l h
            · split at h
              · exact ih l h
              · rcases List.mem_cons.mp h with rfl | h
                · rename_i h1 h2 h3 h4 h5
                  simpa using h1
                · exact ih l h

/-- Witness for C5 at a concrete retained line. -/
theorem C5_scanners_drop_their_headers_witness :
    matchesHdr newsHdrWords "hello".data = false ∧
    matchesHdr deepHdrWords "hello".data = false :=
  ⟨C5_scanners_drop_their_headers.1 ["hello".data] "hello".data (by decide),
   C5_scanners_drop_their_headers.2 ["hello".data] "hello".data (by decide)⟩

/-- C6 (amended): the heuristic extractor's scan stops exactly at a `--` line
with optional surrounding whitespace and drops 3+ dash/equals separator
lines, continuing; the companion cleaner's scan instead stops at any line
whose stripped form begins with `--` (which includes 3+ dash separator
lines), and it retains lines made of `=` characters. -/
theorem C6_separator_behavior :
    (∀ l ls, sigNews l = true → newsScan (l :: ls) = []) ∧
    (∀ l ls, sigNews l = false → sepNews l = true → newsScan (l :: ls) = newsScan ls) ∧
    (∀ l ls, deepSig l = true → deepScan (l :: ls) = []) ∧
    (∀ ls, deepScan ("===".data :: ls) = "===".data :: deepScan ls) := by
  refine ⟨?_, ?_, ?_, ?_⟩
  · intro l ls hsig
    have hsh := sig_shape hsig
    rw [newsScan, matchesHdr_false_of_shape (by decide) hsh, quoteNews_false_of_shape hsh,
      replyNews_false_of_shape hsh, hsig]
    simp
  · intro l ls hsig hsep
    have hsh := sep_shape hsep
    rw [newsScan, matchesHdr_false_of_shape (by decide) hsh, quoteNews_false_of_shape hsh,
      replyNews_false_of_shape hsh, hsig, hsep]
    simp
  · intro l ls hsig
    obtain ⟨t, ht⟩ := deepSig_strip hsig
    have hquote : deepQuote l = false := by
      unfold deepQuote
      rw [ht]
      rfl
    have hhdr : matchesHdr deepHdrWords l = false := by
      cases hx : matchesHdr deepHdrWords l with
      | false => rfl
      | true =>
        exfalso
        rcases matchesHdr_first_lower (by decide) hx with ⟨d, t2, rfl, hlow⟩
        have hlower : 97 ≤ (Char.toLower d).toNat ∧ (Char.toLower d).toNat ≤ 122 := by
          unfold isAsciiLower at hlow
          simpa using hlow
        have htn := toLower_toNat d
        cases hws : isPySpace d with
        | true =>
          have := (isPySpace_iff d).mp hws
          split at htn <;> omega
        | false =>
          have hstrip : pyStrip (d :: t2) = '-' :: '-' :: t := ht
          unfold pyStrip at hstrip
          rw [List.dropWhile_cons_of_neg (by simp [hws])] at hstrip
          obtain ⟨t3, ht3⟩ := dropTrailWs_cons_head hstrip
          injection ht3 with hd ht4
          subst hd
          have h45 : ('-' : Char).toNat = 45 := rfl
          split at htn <;> omega
    rw [deepScan, hhdr, hquote, hsig]
    simp
  · intro ls
    have h1 : matchesHdr deepHdrWords "===".data = false := by decide
    have h2 : deepQuote "===".data = false := by decide
    have h3 : deepSig "===".data = false := by decide
    have h4 : inArticleDeep "===".data = false := by decide
    have h5 : containsCI "===".data writesPat = false := by decide
    have h6 : containsCI "===".data wrotePat = false := by decide
    rw [deepScan, h1, h2, h3, h4, h5, h6]
    simp

/-- Witness for C6 at concrete signature and separator lines. -/
theorem C6_separator_behavior_witness :
    newsScan [" -- ".data, "x".data] = [] ∧
    newsScan ["---".data, "x".data] = newsScan ["x".data] ∧
    deepScan ["---".data, "x".data] = [] ∧
    deepScan ["===".data] = ["===".data] := by
  refine ⟨C6_separator_behavior.1 " -- ".data ["x".data] (by decide),
    C6_separator_behavior.2.1 "---".data ["x".data] (by decide) (by decide),
    C6_separator_behavior.2.2.1 "---".data ["x".data] (by decide), ?_⟩
  have := C6_separator_behavior.2.2.2 ([] : List (List Char))
  rw [this]
  rfl

theorem sortStrIns_perm (x : String) (l : List String) : (sortStrIns x l).Perm (x :: l) := by
  induction l with
  | nil => exact List.Perm.refl _
  | cons y ys ih =>
    rw [sortStrIns]
    split
    · exact List.Perm.refl _
    · exact (ih.cons y).trans (List.Perm.swap x y ys)

theorem sortStr_perm (l : List String) : (sortStr l).Perm l := by
  induction l with
  | nil => exact List.Perm.refl _
  | cons x xs ih => exact (sortStrIns_perm x (sortStr xs)).trans (ih.cons x)

theorem sortStr_nodup {l : List String} (h : l.Nodup) : (sortStr l).Nodup :=
  (sortStr_perm l).symm.nodup h

theorem mem_sortStr {x : String} {l : List String} : x ∈ sortStr l ↔ x ∈ l :=
  (sortStr_perm l).mem_iff

theorem lookup_mem {l : List (String × List String)} {d : String} {b : List String}
    (h : l.lookup d = some b) : (d, b) ∈ l := by
  induction l with
  | nil => simp [List.lookup] at h
  | cons p rest ih =>
    rw [List.lookup] at h
    split at h
    · rename_i heq
      injection h with h1
      have h2 : d = p.1 := beq_iff_eq.mp heq
      have h3 : (d, b) = p := by
        cases p
        simp_all
      rw [h3]
      exact List.mem_cons_self _ _
    · exact List.mem_cons_of_mem _ (ih h)

theorem lookup_eq_of_mem {l : List (String × List String)}
    (hnd : (l.map Prod.fst).Nodup) {d : String} {files : List String}
    (h : (d, files) ∈ l) : l.lookup d = some files := by
  induction l with
  | nil => cases h
  | cons p rest ih =>
    rcases List.mem_cons.mp h with heq | hmem
    · rw [← heq, List.lookup]
      simp
    · rw [List.lookup]
      have hk : (d == p.1) = false := by
        apply beq_eq_false_iff_ne.mpr
        intro hdp
        have hdk : d ∈ rest.map Prod.fst := List.mem_map.mpr ⟨(d, files), hmem, rfl⟩
        rw [List.map_cons, List.nodup_cons] at hnd
        exact hnd.1 (hdp ▸ hdk)
      simp only [hk]
      exact ih (by rw [List.map_cons, List.nodup_cons] at hnd; exact hnd.2) hmem

theorem filter_flatMap_single {α β : Type} [DecidableEq α] (p : β → Bool) (g : α → List β)
    (d : α) (sds : List α) (hnd : sds.Nodup) (hd : d ∈ sds)
    (hmatch : ∀ b ∈ g d, p b = true)
    (hmiss : ∀ e ∈ sds, e ≠ d → ∀ b ∈ g e, p b = false) :
    (sds.flatMap g).filter p = g d := by
  induction sds with
  | nil => cases hd
  | cons a rest ih =>
    rw [List.flatMap_cons, List.filter_append]
    rcases List.mem_cons.mp hd with heq | hd2
    · subst heq
      have hrest : (rest.flatMap g).filter p = [] := by
        rw [List.filter_eq_nil_iff]
        intro b hb
        rcases List.mem_flatMap.mp hb with ⟨e, he, hbe⟩
        have hne : e ≠ d := by
          rintro rfl
          exact (List.nodup_cons.mp hnd).1 he
        simp [hmiss e (List.mem_cons_of_mem _ he) hne b hbe]
      rw [hrest, List.filter_eq_self.mpr hmatch, List.append_nil]
    · have ha : (g a).filter p = [] := by
        rw [List.filter_eq_nil_iff]
        intro b hb
        have hne : a ≠ d := by
          rintro rfl
          exact (List.nodup_cons.mp hnd).1 hd2
        simp [hmiss a (List.mem_cons_self _ _) hne b hb]
      rw [ha, List.nil_append]
      exact ih (List.nodup_cons.mp hnd).2 hd2
        (fun e he hne => hmiss e (List.mem_cons_of_mem _ he) hne)

/-- C7 (amended): per category, the locator returns exactly
`min(available, cap)` entries, the lexicographically earliest recognized
filenames; when no subdirectory contains a recognized file, the
`.eml`-suffixed entries of the sorted root listing itself (directory entries
included) are returned with category `"uncategorized"` under the same cap. -/
theorem C7_locator_cap (fs : RootDir) (cap : Nat)
    (hnd : (fs.subdirs.map Prod.fst ++ fs.rootFiles).Nodup) :
    (∀ d files, (d, files) ∈ fs.subdirs → d ≠ "uncategorized" →
      (collect_eml_files fs cap).filter (fun it => it.category == d)
        = (((sortStr files).filter isEmlName).take cap).map (fun f => ⟨f, d⟩) ∧
      ((collect_eml_files fs cap).filter (fun it => it.category == d)).length
        = min ((sortStr files).filter isEmlName).length cap) ∧
    (fs.subdirs.all (fun pr => ((sortStr pr.2).filter isEmlName).isEmpty) = true →
      collect_eml_files fs cap
        = (((sortStr (fs.subdirs.map Prod.fst ++ fs.rootFiles)).filter isEmlName).take cap).map
            (fun f => ⟨f, "uncategorized"⟩)) := by
  have hndkeys : (fs.subdirs.map Prod.fst).Nodup := hnd.of_append_left
  have hdirels : ∀ d files, (d, files) ∈ fs.subdirs →
      dirEmls fs d = (sortStr files).filter isEmlName := by
    intro d files hmem
    unfold dirEmls dirFiles
    rw [lookup_eq_of_mem hndkeys hmem]
    rfl
  have hmemsds : ∀ d files, (d, files) ∈ fs.subdirs →
      d ∈ ((sortStr (fs.subdirs.map Prod.fst ++ fs.rootFiles)).filter (isDirName fs)) := by
    intro d files hmem
    rw [List.mem_filter]
    constructor
    · exact mem_sortStr.mpr (List.mem_append.mpr
        (Or.inl (List.mem_map.mpr ⟨(d, files), hmem, rfl⟩)))
    · unfold isDirName
      exact List.any_eq_true.mpr ⟨(d, files), hmem, by simp⟩
  by_cases hv : (((sortStr (fs.subdirs.map Prod.fst ++ fs.rootFiles)).filter
      (isDirName fs)).any (fun d => !(dirEmls fs d).isEmpty)) = true
  · constructor
    · intro d files hmem hdnu
      have heq : (collect_eml_files fs cap).filter (fun it => it.category == d)
          = ((dirEmls fs d).take cap).map (fun f => (⟨f, d⟩ : LocItem)) := by
        simp only [collect_eml_files]
        rw [if_pos hv]
        apply filter_flatMap_single
        · exact (sortStr_nodup hnd).filter _
        · exact hmemsds d files hmem
        · intro b hb
          rcases List.mem_map.mp hb with ⟨f, hf, rfl⟩
          simp
        · intro e he hne b hb
          rcases List.mem_map.mp hb with ⟨f, hf, rfl⟩
          simpa using hne
      rw [hdirels d files hmem] at heq
      refine ⟨heq, ?_⟩
      rw [heq, List.length_map, List.length_take]
      exact Nat.min_comm _ _
    · intro hall
      exfalso
      rcases List.any_eq_true.mp hv with ⟨e, he, hne⟩
      rcases List.any_eq_true.mp ((List.mem_filter.mp he).2) with ⟨pr, hpr, hpre⟩
      have hpe : pr.1 = e := beq_iff_eq.mp hpre
      have hmem2 : (e, pr.2) ∈ fs.subdirs := by
        rw [← hpe]
        exact hpr
      rw [hdirels e pr.2 hmem2] at hne
      have := List.all_eq_true.mp hall pr hpr
      rw [this] at hne
      simp at hne
  · constructor
    · intro d files hmem hdnu
      have hfallback : (collect_eml_files fs cap).filter (fun it => it.category == d) = [] := by
        simp only [collect_eml_files]
        rw [if_neg hv, List.filter_eq_nil_iff]
        intro b hb
        rcases List.mem_map.mp hb with ⟨f, hf, rfl⟩
        simpa using fun h => hdnu h.symm
      have hempty : (sortStr files).filter isEmlName = [] := by
        rw [← hdirels d files hmem]
        have := hmemsds d files hmem
        cases hde : (dirEmls fs d).isEmpty with
        | true => exact List.isEmpty_iff.mp hde
        | false =>
          exfalso
          exact hv (List.any_eq_true.mpr ⟨d, this, by rw [hde]; rfl⟩)
      rw [hfallback, hempty]
      simp
    · intro hall
      simp only [collect_eml_files]
      rw [if_neg hv]

/-- Witness for C7 at a concrete root directory with one category. -/
theorem C7_locator_cap_witness :
    (collect_eml_files ⟨[("cat", ["b.eml", "a.eml", "x.txt"])], ["root.txt"]⟩ 1).filter
        (fun it => it.category == "cat")
      = [⟨"a.eml", "cat"⟩] := by
  have h := ((C7_locator_cap ⟨[("cat", ["b.eml", "a.eml", "x.txt"])], ["root.txt"]⟩ 1
    (by decide)).1 "cat" ["b.eml", "a.eml", "x.txt"] (by decide) (by decide)).1
  rw [h]
  decide

/-!
Character invariants of the cleaner output.
-/

/-- A character is a splitlines boundary other than the newline. -/
def termOnlyNl (c : Char) : Bool := !isTermChar c || c == '\n'

theorem allowedA_iff (c : Char) : allowedA c = true ↔
    ((48 ≤ c.toNat ∧ c.toNat ≤ 57) ∨ (65 ≤ c.toNat ∧ c.toNat ≤ 90) ∨
      (97 ≤ c.toNat ∧ c.toNat ≤ 122) ∨ isPySpace c = true ∨
      c.toNat = 46 ∨ c.toNat = 44 ∨ c.toNat = 33 ∨ c.toNat = 63) := by
  unfold allowedA isAsciiAlnum isAsciiDigit isAsciiUpper isAsciiLower
  simp only [Bool.or_eq_true, Bool.and_eq_true, decide_eq_true_eq, beq_iff_eq]
  tauto

theorem allowedA_arith {c : Char} (h : allowedA c = true) :
    (48 ≤ c.toNat ∧ c.toNat ≤ 57) ∨ (65 ≤ c.toNat ∧ c.toNat ≤ 90) ∨
      (97 ≤ c.toNat ∧ c.toNat ≤ 122) ∨
      (9 ≤ c.toNat ∧ c.toNat ≤ 13) ∨ c.toNat = 32 ∨ (28 ≤ c.toNat ∧ c.toNat ≤ 31) ∨
      c.toNat = 133 ∨ c.toNat = 160 ∨ c.toNat = 5760 ∨
      (8192 ≤ c.toNat ∧ c.toNat ≤ 8202) ∨ c.toNat = 8232 ∨ c.toNat = 8233 ∨
      c.toNat = 8239 ∨ c.toNat = 8287 ∨ c.toNat = 12288 ∨
      c.toNat = 46 ∨ c.toNat = 44 ∨ c.toNat = 33 ∨ c.toNat = 63 := by
  rcases (allowedA_iff c).mp h with h | h | h | h | h | h | h | h
  · omega
  · omega
  · omega
  · have := (isPySpace_iff c).mp h
    omega
  · omega
  · omega
  · omega
  · omega

theorem toLower_eq_self {c : Char} (h : isAsciiUpper c = false) : Char.toLower c = c := by
  unfold Char.toLower
  rw [if_neg]
  intro hc
  have hup : isAsciiUpper c = true := by
    unfold isAsciiUpper
    simp only [Bool.and_eq_true, decide_eq_true_eq]
    omega
  rw [h] at hup
  exact Bool.noConfusion hup

theorem toLower_not_upper (c : Char) : isAsciiUpper (Char.toLower c) = false := by
  have htn := toLower_toNat c
  cases hcon : isAsciiUpper (Char.toLower c) with
  | false => rfl
  | true =>
    exfalso
    unfold isAsciiUpper at hcon
    simp only [Bool.and_eq_true, decide_eq_true_eq] at hcon
    split at htn <;> omega

theorem isPySpace_toLower (c : Char) : isPySpace (Char.toLower c) = isPySpace c := by
  have htn := toLower_toNat c
  rw [Bool.eq_iff_iff, isPySpace_iff, isPySpace_iff]
  split at htn <;> omega

theorem termOnlyNl_iff (c : Char) : termOnlyNl c = true ↔
    ¬(c.toNat = 11 ∨ c.toNat = 12 ∨ c.toNat = 13 ∨ c.toNat = 28 ∨ c.toNat = 29 ∨
      c.toNat = 30 ∨ c.toNat = 133 ∨ c.toNat = 8232 ∨ c.toNat = 8233) := by
  unfold termOnlyNl isTermChar
  simp only [Bool.or_eq_true, Bool.not_eq_true', Bool.or_eq_false_iff, Bool.and_eq_false_iff,
    decide_eq_false_iff_not, decide_eq_true_eq, beq_iff_eq, beq_eq_false_iff_ne, ne_eq]
  constructor
  · rintro (h | rfl)
    · omega
    · have : ('\n' : Char).toNat = 10 := rfl
      omega
  · intro h
    by_cases hnl : c.toNat = 10
    · right
      exact char_eq_of_toNat hnl
    · left
      omega

theorem termOnlyNl_toLower {c : Char} (h : termOnlyNl c = true) :
    termOnlyNl (Char.toLower c) = true := by
  rw [termOnlyNl_iff] at h ⊢
  have htn := toLower_toNat c
  split at htn <;> omega

theorem allowedA_toLower {c : Char} (h : allowedA c = true) :
    allowedA (Char.toLower c) = true := by
  have h1 := allowedA_arith h
  have htn := toLower_toNat c
  rw [allowedA_iff, isPySpace_iff]
  split at htn <;> omega

theorem allowed_illegal_ws {c : Char} (ha : allowedA c = true) (hi : isIllegalXml c = true) :
    isPySpace c = true := by
  have h1 := allowedA_arith ha
  unfold isIllegalXml at hi
  simp only [Bool.or_eq_true, Bool.and_eq_true, decide_eq_true_eq, beq_iff_eq] at hi
  rw [isPySpace_iff]
  omega

theorem charSub_allowed (l : List Char) : ∀ c ∈ charSub l, allowedA c = true := by
  intro c hc
  rcases List.mem_map.mp hc with ⟨d, _, rfl⟩
  by_cases hd : allowedA d = true
  · rw [if_pos hd]
    exact hd
  · rw [if_neg hd]
    decide

theorem charSub_id {l : List Char} (h : ∀ c ∈ l, allowedA c = true) : charSub l = l := by
  unfold charSub
  induction l with
  | nil => rfl
  | cons c rest ih =>
    rw [List.map_cons, if_pos (h c (List.mem_cons_self _ _)), ih]
    intro d hd
    exact h d (List.mem_cons_of_mem _ hd)

theorem mem_collapseNlGo {b : Bool} {l : List Char} {c : Char} (h : c ∈ collapseNlGo b l) :
    c ∈ l ∨ c = '\n' := by
  induction b, l using collapseNlGo.induct with
  | case1 b => simp [collapseNlGo] at h
  | case2 d rest hd ih =>
    rw [collapseNlGo, if_pos hd] at h
    rcases ih h with h2 | h2
    · exact Or.inl (List.mem_cons_of_mem _ h2)
    · exact Or.inr h2
  | case3 d rest hd ih =>
    rw [collapseNlGo, if_neg hd] at h
    rcases List.mem_cons.mp h with rfl | h2
    · exact Or.inl (List.mem_cons_self _ _)
    · rcases ih h2 with h3 | h3
      · exact Or.inl (List.mem_cons_of_mem _ h3)
      · exact Or.inr h3
  | case4 rest ih =>
    rw [collapseNlGo] at h
    rcases List.mem_cons.mp h with rfl | h2
    · exact Or.inr rfl
    · rcases ih h2 with h3 | h3
      · exact Or.inl (List.mem_cons_of_mem _ (List.mem_cons_of_mem _ h3))
      · exact Or.inr h3
  | case5 d rest hne ih =>
    have heq : collapseNlGo false (d :: rest) = d :: collapseNlGo false rest := by
      rw [collapseNlGo]
      exact hne
    rw [heq] at h
    rcases List.mem_cons.mp h with rfl | h2
    · exact Or.inl (List.mem_cons_self _ _)
    · rcases ih h2 with h3 | h3
      · exact Or.inl (List.mem_cons_of_mem _ h3)
      · exact Or.inr h3

theorem mem_collapseWsGo {b : Bool} {l : List Char} {c : Char} (h : c ∈ collapseWsGo b l) :
    c ∈ l ∨ c = ' ' := by
  induction b, l using collapseWsGo.induct with
  | case1 b => simp [collapseWsGo] at h
  | case2 d rest hd ih =>
    rw [collapseWsGo, if_pos hd] at h
    rcases ih h with h2 | h2
    · exact Or.inl (List.mem_cons_of_mem _ h2)
    · exact Or.inr h2
  | case3 d rest hd ih =>
    rw [collapseWsGo, if_neg hd] at h
    rcases List.mem_cons.mp h with rfl | h2
    · exact Or.inl (List.mem_cons_self _ _)
    · rcases ih h2 with h3 | h3
      · exact Or.inl (List.mem_cons_of_mem _ h3)
      · exact Or.inr h3
  | case4 d hd =>
    have heq : collapseWsGo false [d] = [d] := by
      rw [collapseWsGo.eq_def]
      simp [hd]
    rw [heq] at h
    rcases List.mem_cons.mp h with rfl | h2
    · exact Or.inl (List.mem_cons_self _ _)
    · simp at h2
  | case5 d hd e tail he ih =>
    have heq : collapseWsGo false (d :: e :: tail) = ' ' :: collapseWsGo true (e :: tail) := by
      rw [collapseWsGo.eq_def]
      simp [hd, he]
    rw [heq] at h
    rcases List.mem_cons.mp h with rfl | h2
    · exact Or.inr rfl
    · rcases ih h2 with h3 | h3
      · exact Or.inl (List.mem_cons_of_mem _ h3)
      · exact Or.inr h3
  | case6 d hd e tail he ih =>
    have heq : collapseWsGo false (d :: e :: tail) = d :: collapseWsGo false (e :: tail) := by
      rw [collapseWsGo.eq_def]
      simp [hd, he]
    rw [heq] at h
    rcases List.mem_cons.mp h with rfl | h2
    · exact Or.inl (List.mem_cons_self _ _)
    · rcases ih h2 with h3 | h3
      · exact Or.inl (List.mem_cons_of_mem _ h3)
      · exact Or.inr h3
  | case7 d rest hd ih =>
    have heq : collapseWsGo false (d :: rest) = d :: collapseWsGo false rest := by
      rw [collapseWsGo.eq_def]
      simp [hd]
    rw [heq] at h
    rcases List.mem_cons.mp h with rfl | h2
    · exact Or.inl (List.mem_cons_self _ _)
    · rcases ih h2 with h3 | h3
      · exact Or.inl (List.mem_cons_of_mem _ h3)
      · exact Or.inr h3

theorem mem_subEmailGo {st : TokSt} {l : List Char} {c : Char} (h : c ∈ subEmailGo st l) :
    c ∈ l ∨ c = ' ' := by
  induction st, l using subEmailGo.induct with
  | case1 st => simp [subEmailGo] at h
  | case2 d rest hd ih =>
    have heq : subEmailGo .idle (d :: rest) = d :: subEmailGo .idle rest := by
      rw [subEmailGo.eq_def]
      simp [hd]
    rw [heq] at h
    rcases List.mem_cons.mp h with rfl | h2
    · exact Or.inl (List.mem_cons_self _ _)
    · rcases ih h2 with h3 | h3
      · exact Or.inl (List.mem_cons_of_mem _ h3)
      · exact Or.inr h3
  | case3 d rest hd htok ih =>
    have heq : subEmailGo .idle (d :: rest) = ' ' :: subEmailGo .skip rest := by
      rw [subEmailGo.eq_def]
      simp [hd, htok]
    rw [heq] at h
    rcases List.mem_cons.mp h with rfl | h2
    · exact Or.inr rfl
    · rcases ih h2 with h3 | h3
      · exact Or.inl (List.mem_cons_of_mem _ h3)
      · exact Or.inr h3
  | case4 d rest hd htok ih =>
    have heq : subEmailGo .idle (d :: rest) = d :: subEmailGo .keep rest := by
      rw [subEmailGo.eq_def]
      simp [hd, htok]
    rw [heq] at h
    rcases List.mem_cons.mp h with rfl | h2
    · exact Or.inl (List.mem_cons_self _ _)
    · rcases ih h2 with h3 | h3
      · exact Or.inl (List.mem_cons_of_mem _ h3)
      · exact Or.inr h3
  | case5 d rest hd ih =>
    have heq : subEmailGo .keep (d :: rest) = d :: subEmailGo .idle rest := by
      rw [subEmailGo.eq_def]
      simp [hd]
    rw [heq] at h
    rcases List.mem_cons.mp h with rfl | h2
    · exact Or.inl (List.mem_cons_self _ _)
    · rcases ih h2 with h3 | h3
      · exact Or.inl (List.mem_cons_of_mem _ h3)
      · exact Or.inr h3
  | case6 d rest hd ih =>
    have heq : subEmailGo .keep (d :: rest) = d :: subEmailGo .keep rest := by
      rw [subEmailGo.eq_def]
      simp [hd]
    rw [heq] at h
    rcases List.mem_cons.mp h with rfl | h2
    · exact Or.inl (List.mem_cons_self _ _)
    · rcases ih h2 with h3 | h3
      · exact Or.inl (List.mem_cons_of_mem _ h3)
      · exact Or.inr h3
  | case7 d rest hd ih =>
    have heq : subEmailGo .skip (d :: rest) = d :: subEmailGo .idle rest := by
      rw [subEmailGo.eq_def]
      simp [hd]
    rw [heq] at h
    rcases List.mem_cons.mp h with rfl | h2
    · exact Or.inl (List.mem_cons_self _ _)
    · rcases ih h2 with h3 | h3
      · exact Or.inl (List.mem_cons_of_mem _ h3)
      · exact Or.inr h3
  | case8 d rest hd ih =>
    have heq : subEmailGo .skip (d :: rest) = subEmailGo .skip rest := by
      rw [subEmailGo.eq_def]
      simp [hd]
    rw [heq] at h
    rcases ih h with h3 | h3
    · exact Or.inl (List.mem_cons_of_mem _ h3)
    · exact Or.inr h3

theorem mem_subUrlGo {b : Bool} {l : List Char} {c : Char} (h : c ∈ subUrlGo b l) :
    c ∈ l ∨ c = ' ' := by
  induction b, l using subUrlGo.induct with
  | case1 b => simp [subUrlGo] at h
  | case2 d rest hd ih =>
    have heq : subUrlGo true (d :: rest) = d :: subUrlGo false rest := by
      rw [subUrlGo.eq_def]
      simp [hd]
    rw [heq] at h
    rcases List.mem_cons.mp h with rfl | h2
    · exact Or.inl (List.mem_cons_self _ _)
    · rcases ih h2 with h3 | h3
      · exact Or.inl (List.mem_cons_of_mem _ h3)
      · exact Or.inr h3
  | case3 d rest hd ih =>
    have heq : subUrlGo true (d :: rest) = subUrlGo true rest := by
      rw [subUrlGo.eq_def]
      simp [hd]
    rw [heq] at h
    rcases ih h with h3 | h3
    · exact Or.inl (List.mem_cons_of_mem _ h3)
    · exact Or.inr h3
  | case4 d rest hd ih =>
    have heq : subUrlGo false ('h' :: 't' :: 't' :: 'p' :: d :: rest)
        = 'h' :: subUrlGo false ('t' :: 't' :: 'p' :: d :: rest) := by
      rw [subUrlGo.eq_def]
      simp [hd]
    rw [heq] at h
    rcases List.mem_cons.mp h with rfl | h2
    · exact Or.inl (List.mem_cons_self _ _)
    · rcases ih h2 with h3 | h3
      · exact Or.inl (List.mem_cons_of_mem _ h3)
      · exact Or.inr h3
  | case5 d rest hd ih =>
    have heq : subUrlGo false ('h' :: 't' :: 't' :: 'p' :: d :: rest)
        = ' ' :: subUrlGo true (d :: rest) := by
      rw [subUrlGo.eq_def]
      simp [hd]
    rw [heq] at h
    rcases List.mem_cons.mp h with rfl | h2
    · exact Or.inr rfl
    · rcases ih h2 with h3 | h3
      · exact Or.inl (List.mem_cons_of_mem _ (List.mem_cons_of_mem _
          (List.mem_cons_of_mem _ (List.mem_cons_of_mem _ h3))))
      · exact Or.inr h3
  | case6 d rest hd ih =>
    have heq : subUrlGo false ('w' :: 'w' :: 'w' :: '.' :: d :: rest)
        = 'w' :: subUrlGo false ('w' :: 'w' :: '.' :: d :: rest) := by
      rw [subUrlGo.eq_def]
      simp [hd]
    rw [heq] at h
    rcases List.mem_cons.mp h with rfl | h2
    · exact Or.inl (List.mem_cons_self _ _)
    · rcases ih h2 with h3 | h3
      · exact Or.inl (List.mem_cons_of_mem _ h3)
      · exact Or.inr h3
  | case7 d rest hd ih =>
    have heq : subUrlGo false ('w' :: 'w' :: 'w' :: '.' :: d :: rest)
        = ' ' :: subUrlGo true (d :: rest) := by
      rw [subUrlGo.eq_def]
      simp [hd]
    rw [heq] at h
    rcases List.mem_cons.mp h with rfl | h2
    · exact Or.inr rfl
    · rcases ih h2 with h3 | h3
      · exact Or.inl (List.mem_cons_of_mem _ (List.mem_cons_of_mem _
          (List.mem_cons_of_mem _ (List.mem_cons_of_mem _ h3))))
      · exact Or.inr h3
  | case8 d rest hne1 hne2 ih =>
    have heq : subUrlGo false (d :: rest) = d :: subUrlGo false rest := by
      rw [subUrlGo.eq_def]
      split
      · rename_i hE
        exact absurd hE (List.cons_ne_nil _ _)
      · rename_i e tail hB hE
        exact absurd hB (by simp)
      · rename_i e tail hB hE
        injection hE with h1 h2
        exact (hne1 e tail h1 h2).elim
      · rename_i e tail hB hE
        injection hE with h1 h2
        exact (hne2 e tail h1 h2).elim
      · rename_i e tail hx1 hx2 hB hE
        injection hE with h1 h2
        rw [h1, h2]
    rw [heq] at h
    rcases List.mem_cons.mp h with rfl | h2
    · exact Or.inl (List.mem_cons_self _ _)
    · rcases ih h2 with h3 | h3
      · exact Or.inl (List.mem_cons_of_mem _ h3)
      · exact Or.inr h3

theorem mem_subTagGo {b : Bool} {l : List Char} {c : Char} (h : c ∈ subTagGo b l) :
    c ∈ l ∨ c = ' ' := by
  induction b, l using subTagGo.induct with
  | case1 b => simp [subTagGo] at h
  | case2 d rest hd ih =>
    have heq : subTagGo true (d :: rest) = subTagGo false rest := by
      rw [subTagGo.eq_def]
      simp [hd]
    rw [heq] at h
    rcases ih h with h3 | h3
    · exact Or.inl (List.mem_cons_of_mem _ h3)
    · exact Or.inr h3
  | case3 d rest hd ih =>
    have heq : subTagGo true (d :: rest) = subTagGo true rest := by
      rw [subTagGo.eq_def]
      simp [hd]
    rw [heq] at h
    rcases ih h with h3 | h3
    · exact Or.inl (List.mem_cons_of_mem _ h3)
    · exact Or.inr h3
  | case4 rest htag ih =>
    have heq : subTagGo false ('<' :: rest) = ' ' :: subTagGo true rest := by
      rw [subTagGo.eq_def]
      simp [htag]
    rw [heq] at h
    rcases List.mem_cons.mp h with rfl | h2
    · exact Or.inr rfl
    · rcases ih h2 with h3 | h3
      · exact Or.inl (List.mem_cons_of_mem _ h3)
      · exact Or.inr h3
  | case5 rest htag ih =>
    have heq : subTagGo false ('<' :: rest) = '<' :: subTagGo false rest := by
      rw [subTagGo.eq_def]
      simp [htag]
    rw [heq] at h
    rcases List.mem_cons.mp h with rfl | h2
    · exact Or.inl (List.mem_cons_self _ _)
    · rcases ih h2 with h3 | h3
      · exact Or.inl (List.mem_cons_of_mem _ h3)
      · exact Or.inr h3
  | case6 d rest hne ih =>
    have heq : subTagGo false (d :: rest) = d :: subTagGo false rest := by
      rw [subTagGo.eq_def]
      split
      · rename_i hE
        exact absurd hE (List.cons_ne_nil _ _)
      · rename_i e tail hB hE
        exact absurd hB (by simp)
      · rename_i tail hB hE
        injection hE with h1 h2
        exact (hne h1).elim
      · rename_i e tail hx hB hE
        injection hE with h1 h2
        rw [h1, h2]
    rw [heq] at h
    rcases List.mem_cons.mp h with rfl | h2
    · exact Or.inl (List.mem_cons_self _ _)
    · rcases ih h2 with h3 | h3
      · exact Or.inl (List.mem_cons_of_mem _ h3)
      · exact Or.inr h3

theorem mem_joinWithSep {sep : List Char} {ls : List (List Char)} {c : Char}
    (h : c ∈ joinWithSep sep ls) : c ∈ sep ∨ ∃ l ∈ ls, c ∈ l := by
  induction ls with
  | nil => simp [joinWithSep] at h
  | cons l rest ih =>
    cases rest with
    | nil =>
      rw [joinWithSep] at h
      exact Or.inr ⟨l, List.mem_cons_self _ _, h⟩
    | cons l2 rest2 =>
      rw [joinWithSep] at h
      · rcases List.mem_append.mp h with h2 | h2
        · rcases List.mem_append.mp h2 with h3 | h3
          · exact Or.inr ⟨l, List.mem_cons_self _ _, h3⟩
          · exact Or.inl h3
        · rcases ih h2 with h3 | h3
          · exact Or.inl h3
          · rcases h3 with ⟨l3, hl3, hc3⟩
            exact Or.inr ⟨l3, List.mem_cons_of_mem _ hl3, hc3⟩
      · exact List.cons_ne_nil _ _

theorem mem_slGo {cur l line : List Char} {c : Char}
    (hl : line ∈ slGo cur l) (hc : c ∈ line) : c ∈ cur ∨ c ∈ l := by
  induction cur, l using slGo.induct with
  | case1 cur hemp =>
    rw [slGo, if_pos hemp] at hl
    simp at hl
  | case2 cur hemp =>
    rw [slGo, if_neg hemp] at hl
    rw [List.mem_singleton.mp hl] at hc
    exact Or.inl (List.mem_reverse.mp hc)
  | case3 cur rest ih =>
    rw [slGo] at hl
    rcases List.mem_cons.mp hl with rfl | h2
    · exact Or.inl (List.mem_reverse.mp hc)
    · rcases ih h2 with h3 | h3
      · simp at h3
      · exact Or.inr (List.mem_cons_of_mem _ (List.mem_cons_of_mem _ h3))
  | case4 cur d rest hne hterm ih =>
    have heq : slGo cur (d :: rest) = cur.reverse :: slGo [] rest := by
      rw [slGo.eq_def]
      split
      · rename_i hE
        exact absurd hE (by simp)
      · rename_i tail hE
        injection hE with h1 h2
        exact (hne tail h1 h2).elim
      · rename_i e tail hx hE
        injection hE with h1 h2
        rw [if_pos]
        · rw [h2]
        · rw [← h1]
          exact hterm
    rw [heq] at hl
    rcases List.mem_cons.mp hl with rfl | h2
    · exact Or.inl (List.mem_reverse.mp hc)
    · rcases ih h2 with h3 | h3
      · simp at h3
      · exact Or.inr (List.mem_cons_of_mem _ h3)
  | case5 cur d rest hne hterm ih =>
    have heq : slGo cur (d :: rest) = slGo (d :: cur) rest := by
      rw [slGo.eq_def]
      split
      · rename_i hE
        exact absurd hE (by simp)
      · rename_i tail hE
        injection hE with h1 h2
        exact (hne tail h1 h2).elim
      · rename_i e tail hx hE
        injection hE with h1 h2
        rw [if_neg]
        · rw [h1, h2]
        · rw [← h1]
          exact hterm
    rw [heq] at hl
    rcases ih hl with h3 | h3
    · rcases List.mem_cons.mp h3 with rfl | h4
      · exact Or.inr (List.mem_cons_self _ _)
      · exact Or.inl h4
    · exact Or.inr (List.mem_cons_of_mem _ h3)

theorem slGo_no_term {cur l : List Char} {line : List Char}
    (hcur : ∀ c ∈ cur, isTermChar c = false) (hl : line ∈ slGo cur l) :
    ∀ c ∈ line, isTermChar c = false := by
  induction cur, l using slGo.induct with
  | case1 cur hemp =>
    rw [slGo, if_pos hemp] at hl
    simp at hl
  | case2 cur hemp =>
    rw [slGo, if_neg hemp] at hl
    rw [List.mem_singleton.mp hl]
    intro c hc
    exact hcur c (List.mem_reverse.mp hc)
  | case3 cur rest ih =>
    rw [slGo] at hl
    rcases List.mem_cons.mp hl with rfl | h2
    · intro c hc
      exact hcur c (List.mem_reverse.mp hc)
    · exact ih (by simp) h2
  | case4 cur d rest hne hterm ih =>
    have heq : slGo cur (d :: rest) = cur.reverse :: slGo [] rest := by
      rw [slGo.eq_def]
      split
      · rename_i hE
        exact absurd hE (by simp)
      · rename_i tail hE
        injection hE with h1 h2
        exact (hne tail h1 h2).elim
      · rename_i e tail hx hE
        injection hE with h1 h2
        rw [if_pos]
        · rw [h2]
        · rw [← h1]
          exact hterm
    rw [heq] at hl
    rcases List.mem_cons.mp hl with rfl | h2
    · intro c hc
      exact hcur c (List.mem_reverse.mp hc)
    · exact ih (by simp) h2
  | case5 cur d rest hne hterm ih =>
    have heq : slGo cur (d :: rest) = slGo (d :: cur) rest := by
      rw [slGo.eq_def]
      split
      · rename_i hE
        exact absurd hE (by simp)
      · rename_i tail hE
        injection hE with h1 h2
        exact (hne tail h1 h2).elim
      · rename_i e tail hx hE
        injection hE with h1 h2
        rw [if_neg]
        · rw [h1, h2]
        · rw [← h1]
          exact hterm
    rw [heq] at hl
    refine ih ?_ hl
    intro c hc
    rcases List.mem_cons.mp hc with rfl | h3
    · simpa using hterm
    · exact hcur c h3

theorem deepScan_mem {ls : List (List Char)} {l : List Char} (h : l ∈ deepScan ls) : l ∈ ls := by
  induction ls with
  | nil => rw [deepScan] at h; simp at h
  | cons a as ih =>
    rw [deepScan] at h
    split at h
    · exact List.mem_cons_of_mem _ (ih h)
    · split at h
      · exact List.mem_cons_of_mem _ (ih h)
      · split at h
        · simp at h
        · split at h
          · exact List.mem_cons_of_mem _ (ih h)
          · split at h
            · exact List.mem_cons_of_mem _ (ih h)
            · rcases List.mem_cons.mp h with rfl | h2
              · exact List.mem_cons_self _ _
              · exact List.mem_cons_of_mem _ (ih h2)

theorem hasAtMid_mem {l : List Char} (h : hasAtMid l = true) : '@' ∈ l := by
  induction l using hasAtMid.induct with
  | case1 rest => exact List.mem_cons_self _ _
  | case2 d rest hne ih =>
    rw [hasAtMid] at h
    · exact List.mem_cons_of_mem _ (ih h)
    · intro e tail hcontra
      exact hne e tail hcontra
  | case3 => simp [hasAtMid] at h

theorem hasEmail_mem {l : List Char} (h : hasEmail l = true) : '@' ∈ l := by
  induction l using hasEmail.induct with
  | case1 a b rest =>
    exact List.mem_cons_of_mem _ (List.mem_cons_self _ _)
  | case2 d rest hne ih =>
    have heq : hasEmail (d :: rest) = hasEmail rest := by
      rw [hasEmail.eq_def]
      split
      · rename_i a b tail hE
        injection hE with h1 h2
        exact (hne b tail h2).elim
      · rename_i e tail hx hE
        injection hE with h1 h2
        rw [h2]
      · rename_i hE
        exact absurd hE (by simp)
    rw [heq] at h
    exact List.mem_cons_of_mem _ (ih h)
  | case3 => simp [hasEmail] at h

theorem hasTag_mem {l : List Char} (h : hasTag l = true) : '<' ∈ l := by
  induction l using hasTag.induct with
  | case1 rest => exact List.mem_cons_self _ _
  | case2 d rest hne ih =>
    rw [hasTag] at h
    · exact List.mem_cons_of_mem _ (ih h)
    · intro hcontra
      exact hne hcontra
  | case3 => simp [hasTag] at h

/-- No two adjacent whitespace characters (the state of text after the
`\s{2,}` collapse). -/
def noTwoWs : List Char → Bool
  | a :: b :: rest => !(isPySpace a && isPySpace b) && noTwoWs (b :: rest)
  | _ => true

theorem noTwoWs_cons_elim {a : Char} {rest : List Char} (h : noTwoWs (a :: rest) = true) :
    noTwoWs rest = true ∧
      ∀ d, rest.head? = some d → ¬(isPySpace a = true ∧ isPySpace d = true) := by
  cases rest with
  | nil => exact ⟨rfl, by simp⟩
  | cons b tail =>
    rw [noTwoWs] at h
    rcases Bool.and_eq_true_iff.mp h with ⟨h1, h2⟩
    refine ⟨h2, ?_⟩
    intro d hd
    injection hd with hd
    subst hd
    intro ⟨ha, hb⟩
    rw [ha, hb] at h1
    simp at h1

theorem noTwoWs_cons_intro {a : Char} {rest : List Char} (h1 : noTwoWs rest = true)
    (h2 : ∀ d, rest.head? = some d → ¬(isPySpace a = true ∧ isPySpace d = true)) :
    noTwoWs (a :: rest) = true := by
  cases rest with
  | nil => rfl
  | cons b tail =>
    rw [noTwoWs, Bool.and_eq_true_iff]
    refine ⟨?_, h1⟩
    have := h2 b rfl
    cases ha : isPySpace a <;> cases hb : isPySpace b <;> simp_all

theorem collapseWsGo_head_true {l : List Char} {c : Char}
    (h : (collapseWsGo true l).head? = some c) : isPySpace c = false := by
  induction l with
  | nil => simp [collapseWsGo] at h
  | cons d rest ih =>
    by_cases hd : isPySpace d = true
    · rw [collapseWsGo, if_pos hd] at h
      exact ih h
    · rw [collapseWsGo, if_neg hd] at h
      injection h with h
      subst h
      simpa using hd

theorem collapseWsGo_head_false {l : List Char} {c : Char}
    (h : (collapseWsGo false l).head? = some c) :
    ∃ d, l.head? = some d ∧ isPySpace c = isPySpace d := by
  cases l with
  | nil => simp [collapseWsGo] at h
  | cons d rest =>
    by_cases hd : isPySpace d = true
    · cases rest with
      | nil =>
        have heq : collapseWsGo false [d] = [d] := by
          rw [collapseWsGo.eq_def]
          simp [hd]
        rw [heq] at h
        injection h with h
        subst h
        exact ⟨_, rfl, rfl⟩
      | cons e tail =>
        by_cases he : isPySpace e = true
        · have heq : collapseWsGo false (d :: e :: tail) = ' ' :: collapseWsGo true (e :: tail) := by
            rw [collapseWsGo.eq_def]
            simp [hd, he]
          rw [heq] at h
          injection h with h
          subst h
          refine ⟨d, rfl, ?_⟩
          rw [hd]
          decide
        · have heq : collapseWsGo false (d :: e :: tail) = d :: collapseWsGo false (e :: tail) := by
            rw [collapseWsGo.eq_def]
            simp [hd, he]
          rw [heq] at h
          injection h with h
          subst h
          exact ⟨_, rfl, rfl⟩
    · have heq : collapseWsGo false (d :: rest) = d :: collapseWsGo false rest := by
        rw [collapseWsGo.eq_def]
        simp [hd]
      rw [heq] at h
      injection h with h
      subst h
      exact ⟨_, rfl, rfl⟩

theorem collapseWsGo_noTwoWs (b : Bool) (l : List Char) :
    noTwoWs (collapseWsGo b l) = true := by
  induction b, l using collapseWsGo.induct with
  | case1 b => rw [collapseWsGo]; rfl
  | case2 d rest hd ih =>
    rw [collapseWsGo, if_pos hd]
    exact ih
  | case3 d rest hd ih =>
    rw [collapseWsGo, if_neg hd]
    apply noTwoWs_cons_intro ih
    intro e he hcon
    rw [hcon.1] at hd
    exact hd rfl
  | case4 d hd =>
    have heq : collapseWsGo false [d] = [d] := by
      rw [collapseWsGo.eq_def]
      simp [hd]
    rw [heq]
    rfl
  | case5 d hd e tail he ih =>
    have heq : collapseWsGo false (d :: e :: tail) = ' ' :: collapseWsGo true (e :: tail) := by
      rw [collapseWsGo.eq_def]
      simp [hd, he]
    rw [heq]
    apply noTwoWs_cons_intro ih
    intro f hf hcon
    have := collapseWsGo_head_true hf
    rw [this] at hcon
    exact absurd hcon.2 (by simp)
  | case6 d hd e tail he ih =>
    have heq : collapseWsGo false (d :: e :: tail) = d :: collapseWsGo false (e :: tail) := by
      rw [collapseWsGo.eq_def]
      simp [hd, he]
    rw [heq]
    apply noTwoWs_cons_intro ih
    intro f hf hcon
    rcases collapseWsGo_head_false hf with ⟨g, hg, hst⟩
    injection hg with hg
    subst hg
    rw [hst] at hcon
    exact he hcon.2
  | case7 d rest hd ih =>
    have heq : collapseWsGo false (d :: rest) = d :: collapseWsGo false rest := by
      rw [collapseWsGo.eq_def]
      simp [hd]
    rw [heq]
    apply noTwoWs_cons_intro ih
    intro f hf hcon
    exact hd hcon.1

theorem noTwoWs_map {f : Char → Char} (hf : ∀ c, isPySpace (f c) = isPySpace c)
    {l : List Char} (h : noTwoWs l = true) : noTwoWs (l.map f) = true := by
  induction l with
  | nil => rfl
  | cons a rest ih =>
    rcases noTwoWs_cons_elim h with ⟨h1, h2⟩
    rw [List.map_cons]
    apply noTwoWs_cons_intro (ih h1)
    intro d hd hcon
    cases rest with
    | nil => simp at hd
    | cons b tail =>
      rw [List.map_cons] at hd
      injection hd with hd
      subst hd
      rw [hf, hf] at hcon
      exact h2 b rfl hcon

theorem noTwoWs_dropWhile {p : Char → Bool} {l : List Char} (h : noTwoWs l = true) :
    noTwoWs (l.dropWhile p) = true := by
  induction l with
  | nil => rfl
  | cons a rest ih =>
    by_cases ha : p a = true
    · rw [List.dropWhile_cons_of_pos ha]
      exact ih (noTwoWs_cons_elim h).1
    · rw [List.dropWhile_cons_of_neg ha]
      exact h

theorem dropTrailWs_noTwoWs {l : List Char} (h : noTwoWs l = true) :
    noTwoWs (dropTrailWs l) = true := by
  induction l with
  | nil => rfl
  | cons a rest ih =>
    rcases noTwoWs_cons_elim h with ⟨h1, h2⟩
    rw [dropTrailWs]
    split
    · rfl
    · apply noTwoWs_cons_intro (ih h1)
      intro d hd hcon
      cases hdt : dropTrailWs rest with
      | nil => rw [hdt] at hd; simp at hd
      | cons e tail =>
        rw [hdt] at hd
        injection hd with hd
        subst hd
        rcases dropTrailWs_cons_head hdt with ⟨t2, ht2⟩
        rw [ht2] at h2
        exact h2 _ rfl hcon

theorem pyStrip_noTwoWs {l : List Char} (h : noTwoWs l = true) :
    noTwoWs (pyStrip l) = true :=
  dropTrailWs_noTwoWs (noTwoWs_dropWhile h)

theorem head_dropWhile_not {p : Char → Bool} {l : List Char} {c : Char}
    (h : (l.dropWhile p).head? = some c) : p c = false := by
  induction l with
  | nil => simp at h
  | cons a rest ih =>
    by_cases ha : p a = true
    · rw [List.dropWhile_cons_of_pos ha] at h
      exact ih h
    · rw [List.dropWhile_cons_of_neg ha] at h
      injection h with h
      subst h
      simpa using ha

theorem pyStrip_head_not_ws {l : List Char} {c : Char}
    (h : (pyStrip l).head? = some c) : isPySpace c = false := by
  unfold pyStrip at h
  cases hdt : dropTrailWs (l.dropWhile isPySpace) with
  | nil => rw [hdt] at h; simp at h
  | cons e tail =>
    rw [hdt] at h
    injection h with h
    subst h
    rcases dropTrailWs_cons_head hdt with ⟨t2, ht2⟩
    exact head_dropWhile_not (l := l) (p := isPySpace) (by rw [ht2]; rfl)

theorem dropTrailWs_getLast_not_ws {l : List Char} {c : Char}
    (h : (dropTrailWs l).getLast? = some c) : isPySpace c = false := by
  induction l with
  | nil => simp [dropTrailWs] at h
  | cons a rest ih =>
    rw [dropTrailWs] at h
    split at h
    · simp at h
    · rename_i hcond
      cases hdt : dropTrailWs rest with
      | nil =>
        rw [hdt] at h
        simp at h
        rw [hdt] at hcond
        rw [← h]
        cases hws : isPySpace a with
        | false => rfl
        | true => exact absurd (by simp [hws]) hcond
      | cons e tail =>
        rw [hdt, List.getLast?_cons_cons] at h
        rw [hdt] at ih
        exact ih h

theorem pyStrip_getLast_not_ws {l : List Char} {c : Char}
    (h : (pyStrip l).getLast? = some c) : isPySpace c = false :=
  dropTrailWs_getLast_not_ws h

theorem filter_head_keep {p : Char → Bool} {l : List Char} {c : Char}
    (h : l.head? = some c) (hc : p c = true) : (l.filter p).head? = some c := by
  cases l with
  | nil => simp at h
  | cons a rest =>
    injection h with h
    subst h
    rw [List.filter_cons_of_pos hc]
    rfl

theorem illegalFilter_invariants {l : List Char} (h2 : noTwoWs l = true)
    (hwsill : ∀ c ∈ l, isIllegalXml c = true → isPySpace c = true) :
    noTwoWs (illegalFilter l) = true ∧
      (∀ c, (illegalFilter l).head? = some c → isPySpace c = true →
        ∃ d, l.head? = some d ∧ isPySpace d = true) := by
  induction l with
  | nil => exact ⟨rfl, by simp [illegalFilter]⟩
  | cons a rest ih =>
    rcases noTwoWs_cons_elim h2 with ⟨h1, hhd⟩
    have hwr : ∀ c ∈ rest, isIllegalXml c = true → isPySpace c = true :=
      fun c hc => hwsill c (List.mem_cons_of_mem _ hc)
    rcases ih h1 hwr with ⟨ih1, ih2⟩
    by_cases hil : isIllegalXml a = true
    · have heq : illegalFilter (a :: rest) = illegalFilter rest := by
        unfold illegalFilter
        rw [List.filter_cons_of_neg (by simp [hil])]
      rw [heq]
      refine ⟨ih1, ?_⟩
      intro c hc hws
      exact ⟨a, rfl, hwsill a (List.mem_cons_self _ _) hil⟩
    · have heq : illegalFilter (a :: rest) = a :: illegalFilter rest := by
        unfold illegalFilter
        rw [List.filter_cons_of_pos (by simp [hil])]
      rw [heq]
      constructor
      · apply noTwoWs_cons_intro ih1
        intro d hd hcon
        rcases ih2 d hd hcon.2 with ⟨e, he, hwe⟩
        exact hhd e he ⟨hcon.1, hwe⟩
      · intro c hc hws
        injection hc with hc
        subst hc
        exact ⟨_, rfl, hws⟩

theorem illegalFilter_getLast {l : List Char} {c : Char} (h : l.getLast? = some c)
    (hc : isIllegalXml c = false) : (illegalFilter l).getLast? = some c := by
  unfold illegalFilter
  rw [List.getLast?_eq_head?_reverse] at h
  rw [List.getLast?_eq_head?_reverse, ← List.filter_reverse]
  exact filter_head_keep h (by simp [hc])

theorem illegalFilter_head {l : List Char} {c : Char} (h : l.head? = some c)
    (hc : isIllegalXml c = false) : (illegalFilter l).head? = some c :=
  filter_head_keep h (by simp [hc])

theorem findBody_none {l : List Char} (h : noTwoWs l = true) : findBody l = none := by
  induction l with
  | nil => rfl
  | cons a rest ih =>
    rcases noTwoWs_cons_elim h with ⟨h1, hhd⟩
    by_cases ha : a = '\n'
    · subst ha
      have hrun : rest.takeWhile isPySpace = [] := by
        cases rest with
        | nil => rfl
        | cons b tail =>
          have hb : isPySpace b = false := by
            cases hb : isPySpace b with
            | false => rfl
            | true => exact absurd ⟨by decide, hb⟩ (hhd b rfl)
          rw [List.takeWhile_cons_of_neg (by simp [hb])]
      rw [findBody, hrun]
      rw [if_neg (by simp)]
      exact ih h1
    · have heq : findBody (a :: rest) = findBody rest := by
        rw [findBody.eq_def]
        split
        · rename_i hE
          exact absurd hE (by simp)
        · rename_i tail hE
          injection hE with hE1 hE2
          exact absurd hE1 ha
        · rename_i d tail hne hE
          injection hE with hE1 hE2
          rw [hE2]
      rw [heq]
      exact ih h1

theorem slGo_ne_nil {l cur : List Char} (h : l ≠ [] ∨ cur ≠ []) : slGo cur l ≠ [] := by
  induction cur, l using slGo.induct with
  | case1 cur hemp =>
    rcases h with h | h
    · exact absurd rfl h
    · exact absurd (List.isEmpty_iff.mp hemp) h
  | case2 cur hemp =>
    rw [slGo, if_neg hemp]
    simp
  | case3 cur rest ih =>
    rw [slGo]
    simp
  | case4 cur d rest hne hterm ih =>
    have heq : slGo cur (d :: rest) = cur.reverse :: slGo [] rest := by
      rw [slGo.eq_def]
      split
      · rename_i hE
        exact absurd hE (by simp)
      · rename_i tail hE
        injection hE with h1 h2
        exact (hne tail h1 h2).elim
      · rename_i e tail hx hE
        injection hE with h1 h2
        rw [if_pos]
        · rw [h2]
        · rw [← h1]
          exact hterm
    rw [heq]
    simp
  | case5 cur d rest hne hterm ih =>
    have heq : slGo cur (d :: rest) = slGo (d :: cur) rest := by
      rw [slGo.eq_def]
      split
      · rename_i hE
        exact absurd hE (by simp)
      · rename_i tail hE
        injection hE with h1 h2
        exact (hne tail h1 h2).elim
      · rename_i e tail hx hE
        injection hE with h1 h2
        rw [if_neg]
        · rw [h1, h2]
        · rw [← h1]
          exact hterm
    rw [heq]
    exact ih (Or.inr (by simp))

theorem join_slGo {l : List Char} :
    ∀ cur, (∀ c ∈ l, termOnlyNl c = true) → (∀ c, l.getLast? = some c → c ≠ '\n') →
      joinWithSep ['\n'] (slGo cur l) = cur.reverse ++ l := by
  induction l with
  | nil =>
    intro cur hterm hlast
    rw [slGo]
    split
    · rename_i hemp
      rw [List.isEmpty_iff.mp hemp]
      rfl
    · rw [joinWithSep]
      simp
  | cons a rest ih =>
    intro cur hterm hlast
    by_cases hta : isTermChar a = true
    · have hanl : a = '\n' := by
        have := hterm a (List.mem_cons_self _ _)
        unfold termOnlyNl at this
        rcases Bool.or_eq_true_iff.mp this with hcon | hcon
        · rw [hta] at hcon
          simp at hcon
        · exact beq_iff_eq.mp hcon
      subst hanl
      have hrest_ne : rest ≠ [] := by
        intro hre
        subst hre
        exact hlast '\n' rfl rfl
      have heq : slGo cur ('\n' :: rest) = cur.reverse :: slGo [] rest := by
        rw [slGo.eq_def]
        split
        · rename_i hE
          exact absurd hE (by simp)
        · rename_i tail hE
          injection hE with h1 h2
          exact absurd h1.symm (by decide)
        · rename_i e tail hx hE
          injection hE with h1 h2
          rw [if_pos]
          · rw [h2]
          · rw [← h1]
            decide
      rw [heq]
      have hj := ih [] (fun c hc => hterm c (List.mem_cons_of_mem _ hc))
        (fun c hc => hlast c (by
          cases rest with
          | nil => exact absurd rfl hrest_ne
          | cons b tail => rw [List.getLast?_cons_cons]; exact hc))
      cases hsl : slGo ([] : List Char) rest with
      | nil => exact absurd hsl (slGo_ne_nil (Or.inl hrest_ne))
      | cons x xs =>
        rw [joinWithSep]
        · rw [← hsl, hj]
          simp
        · simp
    · have heq : slGo cur (a :: rest) = slGo (a :: cur) rest := by
        rw [slGo.eq_def]
        split
        · rename_i hE
          exact absurd hE (by simp)
        · rename_i tail hE
          injection hE with h1 h2
          rw [h1] at hta
          exact absurd (by decide) hta
        · rename_i e tail hx hE
          injection hE with h1 h2
          rw [if_neg]
          · rw [h1, h2]
          · rw [← h1]
            exact hta
      rw [heq]
      have hj := ih (a :: cur) (fun c hc => hterm c (List.mem_cons_of_mem _ hc))
        (fun c hc => hlast c (by
          cases rest with
          | nil => simp at hc
          | cons b tail => rw [List.getLast?_cons_cons]; exact hc))
      rw [hj]
      simp

theorem join_pySplitlines_id {l : List Char} (hterm : ∀ c ∈ l, termOnlyNl c = true)
    (hlast : ∀ c, l.getLast? = some c → c ≠ '\n') :
    joinWithSep ['\n'] (pySplitlines l) = l := by
  unfold pySplitlines
  rw [join_slGo [] hterm hlast]
  rfl

theorem deepScan_id {ls : List (List Char)}
    (h : ∀ l ∈ ls, matchesHdr deepHdrWords l = false ∧ deepQuote l = false ∧
      deepSig l = false ∧ inArticleDeep l = false ∧
      containsCI l writesPat = false ∧ containsCI l wrotePat = false) :
    deepScan ls = ls := by
  induction ls with
  | nil => rfl
  | cons a as ih =>
    rcases h a (List.mem_cons_self _ _) with ⟨h1, h2, h3, h4, h5, h6⟩
    rw [deepScan, h1, h2, h3, h4, h5, h6]
    simp only [Bool.false_eq_true, if_false, Bool.or_self]
    rw [ih (fun l hl => h l (List.mem_cons_of_mem _ hl))]

theorem allowed_no_lower_colon {line : List Char} (hall : ∀ c ∈ line, allowedA c = true)
    {d : Char} (hd : d ∈ line) (hlow : Char.toLower d = ':') : False := by
  have ha := allowedA_arith (hall d hd)
  have h58 : (':' : Char).toNat = 58 := rfl
  rcases toLower_eq_toNat hlow with ⟨g1, g2, g3⟩ | ⟨g1, g3⟩ <;> omega

theorem allowed_notMem {line : List Char} (hall : ∀ c ∈ line, allowedA c = true)
    {d : Char} (hd : d ∈ line) :
    d.toNat ≠ 62 ∧ d.toNat ≠ 124 ∧ d.toNat ≠ 45 ∧ d.toNat ≠ 60 := by
  have ha := allowedA_arith (hall d hd)
  omega

theorem line_checks_of_allowed {line : List Char} (hall : ∀ c ∈ line, allowedA c = true) :
    matchesHdr deepHdrWords line = false ∧ deepQuote line = false ∧
      deepSig line = false ∧ inArticleDeep line = false ∧
      containsCI line writesPat = false ∧ containsCI line wrotePat = false := by
  refine ⟨?_, ?_, ?_, ?_, ?_, ?_⟩
  · cases hx : matchesHdr deepHdrWords line with
    | false => rfl
    | true =>
      exfalso
      rcases matchesHdr_colon (by decide) hx with ⟨d, hd, hlow⟩
      exact allowed_no_lower_colon hall hd hlow
  · cases hx : deepQuote line with
    | false => rfl
    | true =>
      exfalso
      unfold deepQuote at hx
      split at hx
      · rename_i heq
        have hm : '>' ∈ pyStrip line := by rw [heq]; exact List.mem_cons_self _ _
        exact (allowed_notMem hall (mem_pyStrip hm)).1 rfl
      · rename_i heq
        have hm : '|' ∈ pyStrip line := by rw [heq]; exact List.mem_cons_self _ _
        exact (allowed_notMem hall (mem_pyStrip hm)).2.1 rfl
      · simp at hx
  · cases hx : deepSig line with
    | false => rfl
    | true =>
      exfalso
      obtain ⟨t, ht⟩ := deepSig_strip hx
      have hm : '-' ∈ pyStrip line := by rw [ht]; exact List.mem_cons_self _ _
      exact (allowed_notMem hall (mem_pyStrip hm)).2.2.1 rfl
  · cases hx : inArticleDeep line with
    | false => rfl
    | true =>
      exfalso
      exact (allowed_notMem hall (inArticleDeep_lt hx)).2.2.2 rfl
  · cases hx : containsCI line writesPat with
    | false => rfl
    | true =>
      exfalso
      rcases containsCI_mem (by decide) hx ':' (by decide) with ⟨d, hd, hlow⟩
      exact allowed_no_lower_colon hall hd hlow
  · cases hx : containsCI line wrotePat with
    | false => rfl
    | true =>
      exfalso
      rcases containsCI_mem (by decide) hx ':' (by decide) with ⟨d, hd, hlow⟩
      exact allowed_no_lower_colon hall hd hlow

theorem subEmailGo_id {l : List Char} (h : ∀ c ∈ l, allowedA c = true) :
    subEmailGo .idle l = l ∧ subEmailGo .keep l = l := by
  induction l with
  | nil => exact ⟨rfl, rfl⟩
  | cons c rest ih =>
    have hrest : ∀ d ∈ rest, allowedA d = true := fun d hd => h d (List.mem_cons_of_mem _ hd)
    rcases ih hrest with ⟨ih1, ih2⟩
    have hna : ('@' : Char) ∉ c :: rest := by
      intro hm
      have := allowedA_arith (h '@' hm)
      have h64 : ('@' : Char).toNat = 64 := rfl
      omega
    constructor
    · by_cases hws : isPySpace c = true
      · have heq : subEmailGo .idle (c :: rest) = c :: subEmailGo .idle rest := by
          rw [subEmailGo.eq_def]
          simp [hws]
        rw [heq, ih1]
      · have htokf : emailTokB (c :: rest.takeWhile (fun d => !isPySpace d)) = false := by
          cases htk : emailTokB (c :: rest.takeWhile (fun d => !isPySpace d)) with
          | false => rfl
          | true =>
            exfalso
            have hmm : '@' ∈ rest.takeWhile (fun d => !isPySpace d) := hasAtMid_mem htk
            exact hna (List.mem_cons_of_mem _ ((List.takeWhile_sublist _).mem hmm))
        have heq : subEmailGo .idle (c :: rest) = c :: subEmailGo .keep rest := by
          rw [subEmailGo.eq_def]
          simp [hws, htokf]
        rw [heq, ih2]
    · by_cases hws : isPySpace c = true
      · have heq : subEmailGo .keep (c :: rest) = c :: subEmailGo .idle rest := by
          rw [subEmailGo.eq_def]
          simp [hws]
        rw [heq, ih1]
      · have heq : subEmailGo .keep (c :: rest) = c :: subEmailGo .keep rest := by
          rw [subEmailGo.eq_def]
          simp [hws]
        rw [heq, ih2]

theorem subUrlGo_id : ∀ {b : Bool} {l : List Char}, b = false → hasUrl l = false →
    subUrlGo b l = l := by
  intro b l
  induction b, l using subUrlGo.induct with
  | case1 b =>
    intro hb hu
    rw [subUrlGo]
  | case2 d rest hd ih =>
    intro hb hu
    exact absurd hb (by simp)
  | case3 d rest hd ih =>
    intro hb hu
    exact absurd hb (by simp)
  | case4 d rest hd ih =>
    intro hb hu
    have heq : subUrlGo false ('h' :: 't' :: 't' :: 'p' :: d :: rest)
        = 'h' :: subUrlGo false ('t' :: 't' :: 'p' :: d :: rest) := by
      rw [subUrlGo.eq_def]
      simp [hd]
    rw [heq]
    have hu2 : hasUrl ('t' :: 't' :: 'p' :: d :: rest) = false := by
      rw [hasUrl] at hu
      rcases Bool.or_eq_false_iff.mp hu with ⟨h1, h2⟩
      exact h2
    rw [ih rfl hu2]
  | case5 d rest hd ih =>
    intro hb hu
    exfalso
    rw [hasUrl] at hu
    rcases Bool.or_eq_false_iff.mp hu with ⟨h1, h2⟩
    simp at h1
    exact hd (by rw [h1])
  | case6 d rest hd ih =>
    intro hb hu
    have heq : subUrlGo false ('w' :: 'w' :: 'w' :: '.' :: d :: rest)
        = 'w' :: subUrlGo false ('w' :: 'w' :: '.' :: d :: rest) := by
      rw [subUrlGo.eq_def]
      simp [hd]
    rw [heq]
    have hu2 : hasUrl ('w' :: 'w' :: '.' :: d :: rest) = false := by
      rw [hasUrl] at hu
      rcases Bool.or_eq_false_iff.mp hu with ⟨h1, h2⟩
      exact h2
    rw [ih rfl hu2]
  | case7 d rest hd ih =>
    intro hb hu
    exfalso
    rw [hasUrl] at hu
    rcases Bool.or_eq_false_iff.mp hu with ⟨h1, h2⟩
    simp at h1
    exact hd (by rw [h1])
  | case8 d rest hne1 hne2 ih =>
    intro hb hu
    have heq : subUrlGo false (d :: rest) = d :: subUrlGo false rest := by
      rw [subUrlGo.eq_def]
      split
      · rename_i hE
        exact absurd hE (List.cons_ne_nil _ _)
      · rename_i e tail hB hE
        exact absurd hB (by simp)
      · rename_i e tail hB hE
        injection hE with h1 h2
        exact (hne1 e tail h1 h2).elim
      · rename_i e tail hB hE
        injection hE with h1 h2
        exact (hne2 e tail h1 h2).elim
      · rename_i e tail hx1 hx2 hB hE
        injection hE with h1 h2
        rw [h1, h2]
    rw [heq]
    have hu2 : hasUrl rest = false := by
      have heq2 : hasUrl (d :: rest) = hasUrl rest := by
        rw [hasUrl.eq_def]
        split
        · rename_i e tail hE
          injection hE with h1 h2
          exact (hne1 e tail h1 h2).elim
        · rename_i e tail hE
          injection hE with h1 h2
          exact (hne2 e tail h1 h2).elim
        · rename_i e tail hx1 hx2 hE
          injection hE with h1 h2
          rw [h2]
        · rename_i hE
          exact absurd hE (List.cons_ne_nil _ _)
      rw [← heq2]
      exact hu
    rw [ih rfl hu2]

theorem subTagGo_id {l : List Char} (h : ('<' : Char) ∉ l) : subTagGo false l = l := by
  induction l with
  | nil => rw [subTagGo]
  | cons c rest ih =>
    have hcne : c ≠ '<' := by
      intro hc
      exact h (hc ▸ List.mem_cons_self _ _)
    have heq : subTagGo false (c :: rest) = c :: subTagGo false rest := by
      rw [subTagGo.eq_def]
      split
      · rename_i hE
        exact absurd hE (List.cons_ne_nil _ _)
      · rename_i e tail hB hE
        exact absurd hB (by simp)
      · rename_i tail hB hE
        injection hE with h1 h2
        exact absurd h1 hcne
      · rename_i e tail hx hB hE
        injection hE with h1 h2
        rw [h1, h2]
    rw [heq, ih (fun hm => h (List.mem_cons_of_mem _ hm))]

theorem collapseNlGo_id {l : List Char} (h : noTwoWs l = true) : collapseNlGo false l = l := by
  induction l with
  | nil => rw [collapseNlGo]
  | cons c rest ih =>
    rcases noTwoWs_cons_elim h with ⟨h1, hhd⟩
    have heq : collapseNlGo false (c :: rest) = c :: collapseNlGo false rest := by
      rw [collapseNlGo.eq_def]
      split
      · rename_i hE
        exact absurd hE (List.cons_ne_nil _ _)
      · rename_i e tail hB hE
        exact absurd hB (by simp)
      · rename_i tail hE
        injection hE with hA hB
        exfalso
        rw [hB] at hhd
        exact hhd '\n' rfl ⟨by rw [hA]; decide, by decide⟩
      · rename_i e tail hx hB hE
        injection hE with hA hB
        rw [hA, hB]
    rw [heq, ih h1]

theorem collapseWsGo_id {l : List Char} (h : noTwoWs l = true) : collapseWsGo false l = l := by
  induction l with
  | nil => rw [collapseWsGo]
  | cons c rest ih =>
    rcases noTwoWs_cons_elim h with ⟨h1, hhd⟩
    by_cases hws : isPySpace c = true
    · cases rest with
      | nil =>
        have heq : collapseWsGo false [c] = [c] := by
          rw [collapseWsGo.eq_def]
          simp [hws]
        rw [heq]
      | cons d tail =>
        have hd : isPySpace d = false := by
          cases hd : isPySpace d with
          | false => rfl
          | true => exact absurd ⟨hws, hd⟩ (hhd d rfl)
        have heq : collapseWsGo false (c :: d :: tail) = c :: collapseWsGo false (d :: tail) := by
          rw [collapseWsGo.eq_def]
          simp [hws, hd]
        rw [heq, ih h1]
    · have heq : collapseWsGo false (c :: rest) = c :: collapseWsGo false rest := by
        rw [collapseWsGo.eq_def]
        simp [hws]
      rw [heq, ih h1]

theorem pyLowerL_id {l : List Char} (h : ∀ c ∈ l, isAsciiUpper c = false) : pyLowerL l = l := by
  unfold pyLowerL
  induction l with
  | nil => rfl
  | cons c rest ih =>
    rw [List.map_cons, toLower_eq_self (h c (List.mem_cons_self _ _)),
      ih (fun d hd => h d (List.mem_cons_of_mem _ hd))]

theorem pyStrip_id {l : List Char} (hhead : ∀ c, l.head? = some c → isPySpace c = false)
    (hlast : ∀ c, l.getLast? = some c → isPySpace c = false) : pyStrip l = l := by
  unfold pyStrip
  have hdw : l.dropWhile isPySpace = l := by
    cases l with
    | nil => rfl
    | cons c rest => exact List.dropWhile_cons_of_neg (by simp [hhead c rfl])
  rw [hdw]
  clear hdw hhead
  induction l with
  | nil => rfl
  | cons c rest ih =>
    rw [dropTrailWs]
    cases hre : rest with
    | nil =>
      have hc : isPySpace c = false := hlast c (by rw [hre]; simp)
      simp [dropTrailWs, hc]
    | cons d tail =>
      rw [← hre]
      have hr : dropTrailWs rest = rest := by
        apply ih
        intro e he
        apply hlast
        rw [hre] at he ⊢
        rw [List.getLast?_cons_cons]
        exact he
      rw [hr]
      have : rest ≠ [] := by rw [hre]; simp
      rw [if_neg]
      simp [this]

theorem illegalFilter_id {l : List Char} (h : ∀ c ∈ l, isIllegalXml c = false) :
    illegalFilter l = l := by
  unfold illegalFilter
  rw [List.filter_eq_self]
  intro c hc
  simp [h c hc]

theorem illegalFilter_not_illegal {l : List Char} : ∀ c ∈ illegalFilter l, isIllegalXml c = false := by
  intro c hc
  have := List.of_mem_filter hc
  simpa using this

theorem mem_illegalFilter {l : List Char} {c : Char} (h : c ∈ illegalFilter l) : c ∈ l :=
  List.mem_of_mem_filter h

theorem mem_charSub {l : List Char} {c : Char} (h : c ∈ charSub l) : c ∈ l ∨ c = ' ' := by
  rcases List.mem_map.mp h with ⟨d, hd, rfl⟩
  by_cases hall : allowedA d = true
  · rw [if_pos hall]
    exact Or.inl hd
  · rw [if_neg hall]
    exact Or.inr rfl

theorem cleanBodyL_eq (l : List Char) : cleanBodyL l
    = illegalFilter (pyStrip (pyLowerL (collapseWs (collapseNl (charSub (subTag (subUrl
        (subEmail (joinWithSep ['\n'] (deepScan (pySplitlines (splitBody l)))))))))))) := rfl

theorem stage7_allowed (t : List Char) :
    ∀ c ∈ collapseWs (collapseNl (charSub t)), allowedA c = true := by
  intro c hc
  rcases mem_collapseWsGo hc with hd6 | rfl
  · rcases mem_collapseNlGo hd6 with hd5 | rfl
    · exact charSub_allowed _ c hd5
    · decide
  · decide

theorem stage9_allowed (t : List Char) :
    ∀ c ∈ pyStrip (pyLowerL (collapseWs (collapseNl (charSub t)))), allowedA c = true := by
  intro c hc
  have hc8 := (pyStrip_sublist _).mem hc
  rcases List.mem_map.mp hc8 with ⟨d, hd7, rfl⟩
  exact allowedA_toLower (stage7_allowed t d hd7)

theorem cleanBody_allowed (l : List Char) : ∀ c ∈ cleanBodyL l, allowedA c = true := by
  rw [cleanBodyL_eq]
  intro c hc
  exact stage9_allowed _ c (mem_illegalFilter hc)

theorem cleanBody_notUpper (l : List Char) : ∀ c ∈ cleanBodyL l, isAsciiUpper c = false := by
  rw [cleanBodyL_eq]
  intro c hc
  have hc9 := mem_illegalFilter hc
  have hc8 := (pyStrip_sublist _).mem hc9
  rcases List.mem_map.mp hc8 with ⟨d, _, rfl⟩
  exact toLower_not_upper d

theorem cleanBody_notIllegal (l : List Char) : ∀ c ∈ cleanBodyL l, isIllegalXml c = false := by
  rw [cleanBodyL_eq]
  exact illegalFilter_not_illegal

theorem cleanBody_noTwoWs (l : List Char) : noTwoWs (cleanBodyL l) = true := by
  rw [cleanBodyL_eq]
  refine (illegalFilter_invariants ?_ ?_).1
  · exact pyStrip_noTwoWs (noTwoWs_map isPySpace_toLower (collapseWsGo_noTwoWs false _))
  · intro c hc hil
    exact allowed_illegal_ws (stage9_allowed _ c hc) hil

theorem cleanBody_head (l : List Char) :
    ∀ c, (cleanBodyL l).head? = some c → isPySpace c = false := by
  rw [cleanBodyL_eq]
  generalize subTag (subUrl (subEmail (joinWithSep ['\n'] (deepScan (pySplitlines (splitBody l)))))) = t
  intro c hc
  cases hws : isPySpace c with
  | false => rfl
  | true =>
    exfalso
    have hinv := (illegalFilter_invariants
      (pyStrip_noTwoWs (noTwoWs_map isPySpace_toLower (collapseWsGo_noTwoWs false (collapseNl (charSub t)))))
      (fun d hd hil => allowed_illegal_ws (stage9_allowed t d hd) hil)).2
    rcases hinv c hc hws with ⟨d, hd, hwd⟩
    rw [pyStrip_head_not_ws hd] at hwd
    exact Bool.noConfusion hwd

theorem cleanBody_last (l : List Char) :
    ∀ c, (cleanBodyL l).getLast? = some c → isPySpace c = false := by
  rw [cleanBodyL_eq]
  intro c hc
  cases h9 : (pyStrip (pyLowerL (collapseWs (collapseNl (charSub (subTag (subUrl
      (subEmail (joinWithSep ['\n'] (deepScan (pySplitlines (splitBody l)))))))))))).getLast? with
  | none =>
    rw [List.getLast?_eq_none_iff] at h9
    rw [h9] at hc
    simp [illegalFilter] at hc
  | some d =>
    have hdws : isPySpace d = false := pyStrip_getLast_not_ws h9
    have hdmem : d ∈ pyStrip (pyLowerL (collapseWs (collapseNl (charSub (subTag (subUrl
        (subEmail (joinWithSep ['\n'] (deepScan (pySplitlines (splitBody l))))))))))) := by
      rcases List.mem_getLast?_eq_getLast (Option.mem_def.mpr h9) with ⟨hne, heq⟩
      rw [heq]
      exact List.getLast_mem hne
    have hdil : isIllegalXml d = false := by
      cases hil : isIllegalXml d with
      | false => rfl
      | true =>
        rw [allowed_illegal_ws (stage9_allowed _ d hdmem) hil] at hdws
        exact Bool.noConfusion hdws
    have := illegalFilter_getLast h9 hdil
    rw [this] at hc
    injection hc with hc
    subst hc
    exact hdws

theorem cleanBody_term (l : List Char) : ∀ c ∈ cleanBodyL l, termOnlyNl c = true := by
  rw [cleanBodyL_eq]
  intro c hc
  have hc9 := mem_illegalFilter hc
  have hc8 := (pyStrip_sublist _).mem hc9
  rcases List.mem_map.mp hc8 with ⟨d, hd7, rfl⟩
  apply termOnlyNl_toLower
  rcases mem_collapseWsGo hd7 with hd6 | rfl
  · rcases mem_collapseNlGo hd6 with hd5 | rfl
    · rcases mem_charSub hd5 with hd4 | rfl
      · rcases mem_subTagGo hd4 with hd3 | rfl
        · rcases mem_subUrlGo hd3 with hd2 | rfl
          · rcases mem_subEmailGo hd2 with hd1 | rfl
            · rcases mem_joinWithSep hd1 with hsep | ⟨line, hline, hdl⟩
              · rcases List.mem_singleton.mp hsep with rfl
                decide
              · have hl0 := deepScan_mem hline
                have := slGo_no_term (by simp) hl0 d hdl
                unfold termOnlyNl
                rw [this]
                rfl
            · decide
          · decide
        · decide
      · decide
    · decide
  · decide

/-- C3 (amended): `clean_body` is idempotent on every input whose cleaned
output contains no URL-pattern match.  The second pass finds no header/body
split, keeps every line, and each regex substitution is the identity on the
already-normalized text. -/
theorem C3_idempotent_when_url_free (x : String)
    (h : hasUrl (clean_body x).data = false) :
    clean_body (clean_body x) = clean_body x := by
  show String.mk (cleanBodyL (cleanBodyL x.data)) = String.mk (cleanBodyL x.data)
  set y := cleanBodyL x.data with hy
  have hall : ∀ c ∈ y, allowedA c = true := cleanBody_allowed x.data
  have hup : ∀ c ∈ y, isAsciiUpper c = false := cleanBody_notUpper x.data
  have hil : ∀ c ∈ y, isIllegalXml c = false := cleanBody_notIllegal x.data
  have hterm : ∀ c ∈ y, termOnlyNl c = true := cleanBody_term x.data
  have htwo : noTwoWs y = true := cleanBody_noTwoWs x.data
  have hhead : ∀ c, y.head? = some c → isPySpace c = false := cleanBody_head x.data
  have hlast : ∀ c, y.getLast? = some c → isPySpace c = false := cleanBody_last x.data
  have h1 : splitBody y = y := by
    unfold splitBody
    rw [findBody_none htwo]
    rfl
  have hlines : ∀ line ∈ pySplitlines y, ∀ c ∈ line, allowedA c = true := by
    intro line hl c hcl
    rcases mem_slGo hl hcl with hcur | hmem
    · simp at hcur
    · exact hall c hmem
  have h2 : deepScan (pySplitlines y) = pySplitlines y :=
    deepScan_id (fun line hl => line_checks_of_allowed (hlines line hl))
  have h3 : joinWithSep ['\n'] (pySplitlines y) = y :=
    join_pySplitlines_id hterm (fun c hc hcn => by
      subst hcn
      exact absurd (hlast '\n' hc) (by decide))
  have h4 : subEmail y = y := (subEmailGo_id hall).1
  have h5 : subUrl y = y := subUrlGo_id rfl h
  have h6 : subTag y = y := subTagGo_id (fun hm => by
    have := allowedA_arith (hall '<' hm)
    have h60 : ('<' : Char).toNat = 60 := rfl
    omega)
  have h7 : charSub y = y := charSub_id hall
  have h8 : collapseNl y = y := collapseNlGo_id htwo
  have h9 : collapseWs y = y := collapseWsGo_id htwo
  have h10 : pyLowerL y = y := pyLowerL_id hup
  have h11 : pyStrip y = y := pyStrip_id hhead hlast
  have h12 : illegalFilter y = y := illegalFilter_id hil
  rw [cleanBodyL_eq, h1, h2, h3, h4, h5, h6, h7, h8, h9, h10, h11, h12]

/-- Witness for C3 at a concrete URL-free input. -/
theorem C3_idempotent_when_url_free_witness :
    clean_body (clean_body "hello world.") = clean_body "hello world." :=
  C3_idempotent_when_url_free "hello world." (by decide)

/-- C4 (amended): every output of `clean_body` is free of email patterns,
free of tag patterns, and made only of characters from the allowed class
(letters, digits, whitespace and `. , ! ?`); the URL-pattern part of the
claimed no-leak invariant is dropped (see the counterexample). -/
theorem C4_no_leak_amended (x : String) :
    hasEmail (clean_body x).data = false ∧ hasTag (clean_body x).data = false ∧
      ∀ c ∈ (clean_body x).data, allowedA c = true := by
  refine ⟨?_, ?_, cleanBody_allowed x.data⟩
  · cases hx : hasEmail (clean_body x).data with
    | false => rfl
    | true =>
      exfalso
      have hm := hasEmail_mem hx
      have := allowedA_arith (cleanBody_allowed x.data '@' hm)
      have h64 : ('@' : Char).toNat = 64 := rfl
      omega
  · cases hx : hasTag (clean_body x).data with
    | false => rfl
    | true =>
      exfalso
      have hm := hasTag_mem hx
      have := allowedA_arith (cleanBody_allowed x.data '<' hm)
      have h60 : ('<' : Char).toNat = 60 := rfl
      omega

/-- C1 (amended): every row text emitted by the assembler is free of the
illegal control characters (the only part of the CleanedText invariant the
conversion pipeline establishes). -/
theorem C1_rows_have_no_illegal_chars (body r : String)
    (h : assembleRowText body = some r) :
    r.data.all (fun c => !isIllegalXml c) = true := by
  unfold assembleRowText at h
  split at h
  · exact absurd h (by simp)
  · injection h with h
    subst h
    rw [List.all_eq_true]
    intro c hc
    simp [illegalFilter_not_illegal c hc]

/-- Witness for C1 at a concrete passing body. -/
theorem C1_rows_have_no_illegal_chars_witness :
    (String.mk (List.replicate 60 'a')).data.all (fun c => !isIllegalXml c) = true :=
  C1_rows_have_no_illegal_chars (String.mk (List.replicate 60 'a'))
    (String.mk (List.replicate 60 'a')) (by decide)

/-- C2 (amended): the length filter is checked on the body before
sanitization and illegal-character stripping; in the companion cleaner
pipeline the serialized text still satisfies the bound because `clean_body`
output contains no illegal characters, so the final strip is the
identity. -/
theorem C2_deep_pipeline_length (t : String)
    (h : MIN_BODY_LEN ≤ (pyStrip (clean_body t).data).length) :
    (∀ b r, assembleRowText b = some r → MIN_BODY_LEN ≤ (pyStrip b.data).length) ∧
    remove_illegal_xml_chars (clean_body t) = clean_body t ∧
    deepPipelineRow t = some (clean_body t) ∧
    MIN_BODY_LEN ≤ (pyStrip (remove_illegal_xml_chars (clean_body t)).data).length := by
  have hid : remove_illegal_xml_chars (clean_body t) = clean_body t := by
    unfold remove_illegal_xml_chars
    have hi : illegalFilter (clean_body t).data = (clean_body t).data :=
      illegalFilter_id (cleanBody_notIllegal t.data)
    rw [hi]
  have h60 : MIN_BODY_LEN = 60 := rfl
  refine ⟨?_, hid, ?_, ?_⟩
  · intro b r hbr
    unfold assembleRowText at hbr
    split at hbr
    · exact absurd hbr (by simp)
    · rename_i hcond
      simp only [Bool.or_eq_true, decide_eq_true_eq, not_or] at hcond
      rcases hcond with ⟨h1, h2⟩
      omega
  · unfold deepPipelineRow
    rw [if_neg (by omega), hid]
  · rw [hid]
    exact h

/-- Witness for C2 at a concrete long input. -/
theorem C2_deep_pipeline_length_witness :
    deepPipelineRow (String.mk (List.replicate 60 'a'))
      = some (clean_body (String.mk (List.replicate 60 'a'))) :=
  (C2_deep_pipeline_length (String.mk (List.replicate 60 'a')) (by decide)).2.2.1
